import Mathlib

/-!
Boulder: verification of the in-memory write path.

A shallow embedding, in Lean 4, of the core in-memory write path of the
`boulder` LSM key-value store: the internal-key trailer encoding
(`internal/base/kv.go`), the lock-free bump arena
(`internal/util/arena/arena.go`), the arena-backed skiplist
(`skiplist.go` / its node and iterator files), and the memtable wrapper
(`pkg/memtable/memtable.go`).

Modelling conventions:

* Go byte slices are `List Nat` (each element a byte value).
* Go machine integers are `Nat`; where 64-bit wrap-around can occur the
  reduction modulo `2 ^ 64` is written out explicitly.
* The concurrent code is embedded with sequential (single-threaded)
  semantics: an atomic load reads the current state, an atomic
  compare-and-swap tests the current state and either updates it or
  leaves it unchanged.  All theorems below are about sequential runs.
* Arena offsets held in skiplist nodes are modelled as indices into a
  node store (`List NodeM`), with index `0` reserved for the nil
  pointer exactly as the arena reserves offset `0`.  Byte-exact node
  layout inside the arena buffer is not needed by the list-structure
  theorems and is abstracted: allocating a node appends it to the node
  store.  The byte-level arena itself is modelled separately, following
  `internal/util/arena/arena.go` verbatim.
-/

namespace Boulder

/-! ## Byte-slice comparison (`bytes.Compare`, the default user-key comparator) -/

/-- Lexicographic byte comparison, mirroring Go's `bytes.Compare`:
`-1` if `a` sorts before `b`, `0` if equal, `1` if `a` sorts after `b`. -/
def bytesCompare : List Nat → List Nat → Int
  | [], [] => 0
  | [], _ :: _ => -1
  | _ :: _, [] => 1
  | a :: as, b :: bs => if a < b then -1 else if b < a then 1 else bytesCompare as bs

theorem bytesCompare_eq_zero_iff : ∀ a b : List Nat, bytesCompare a b = 0 ↔ a = b := by
  intro a
  induction a with
  | nil => intro b; cases b <;> simp [bytesCompare]
  | cons x xs ih =>
    intro b
    cases b with
    | nil => simp [bytesCompare]
    | cons y ys =>
      by_cases hxy : x < y
      · simp [bytesCompare, hxy]
        omega
      · by_cases hyx : y < x
        · simp [bytesCompare, hxy, hyx]
          omega
        · have hxyeq : x = y := by omega
          simp [bytesCompare, hxy, hyx, hxyeq, ih]

theorem bytesCompare_swap : ∀ a b : List Nat, bytesCompare b a = - bytesCompare a b := by
  intro a
  induction a with
  | nil => intro b; cases b <;> simp [bytesCompare]
  | cons x xs ih =>
    intro b
    cases b with
    | nil => simp [bytesCompare]
    | cons y ys =>
      by_cases hxy : x < y
      · have : ¬ y < x := by omega
        simp [bytesCompare, hxy, this]
      · by_cases hyx : y < x
        · simp [bytesCompare, hxy, hyx]
        · simp [bytesCompare, hxy, hyx, ih]

theorem bytesCompare_values : ∀ a b : List Nat,
    bytesCompare a b = -1 ∨ bytesCompare a b = 0 ∨ bytesCompare a b = 1 := by
  intro a
  induction a with
  | nil => intro b; cases b <;> simp [bytesCompare]
  | cons x xs ih =>
    intro b
    cases b with
    | nil => simp [bytesCompare]
    | cons y ys =>
      by_cases hxy : x < y
      · simp [bytesCompare, hxy]
      · by_cases hyx : y < x
        · simp [bytesCompare, hxy, hyx]
        · simp [bytesCompare, hxy, hyx, ih]

theorem bytesCompare_lt_trans : ∀ a b c : List Nat,
    bytesCompare a b < 0 → bytesCompare b c < 0 → bytesCompare a c < 0 := by
  intro a
  induction a with
  | nil =>
    intro b c hab hbc
    cases b with
    | nil => exact hbc
    | cons y ys =>
      cases c with
      | nil => simp [bytesCompare] at hbc
      | cons z zs => simp [bytesCompare]
  | cons x xs ih =>
    intro b c hab hbc
    cases b with
    | nil => simp [bytesCompare] at hab
    | cons y ys =>
      cases c with
      | nil => simp [bytesCompare] at hbc
      | cons z zs =>
        by_cases hxy : x < y
        · -- x < y; from hbc, y ≤ z, so x < z
          by_cases hyz : y < z
          · have hxz : x < z := by omega
            simp [bytesCompare, hxz]
          · by_cases hzy : z < y
            · simp [bytesCompare, hyz, hzy] at hbc
            · have hyzeq : y = z := by omega
              have hxz : x < z := by omega
              simp [bytesCompare, hxz]
        · by_cases hyx : y < x
          · simp [bytesCompare, hxy, hyx] at hab
          · have hxyeq : x = y := by omega
            by_cases hyz : y < z
            · have hxz : x < z := by omega
              simp [bytesCompare, hxz]
            · by_cases hzy : z < y
              · simp [bytesCompare, hyz, hzy] at hbc
              · have hyzeq : y = z := by omega
                subst hxyeq
                have hxz : ¬ x < z := by omega
                have hzx : ¬ z < x := by omega
                simp [bytesCompare, hxy, hyx] at hab
                simp [bytesCompare, hyz, hzy] at hbc
                simp [bytesCompare, hxz, hzx]
                exact ih ys zs hab hbc

/-! ## Internal keys and their order

An internal key is a user key plus a 64-bit trailer `(seq << 8) | kind`
(`internal/base/kv.go`).  The skiplist order is: user key ascending
(byte-lexicographic under the default comparator), then trailer
descending — which is sequence number descending, then kind descending,
since the kind occupies the low 8 bits. -/

/-- An internal key: opaque user-key bytes plus the packed 64-bit trailer. -/
structure InternalKey where
  userKey : List Nat
  trailer : Nat
  deriving DecidableEq, Repr

/-- The strict internal-key order: user key ascending (byte-lex), then
trailer descending. -/
def ikLt (a b : InternalKey) : Prop :=
  bytesCompare a.userKey b.userKey < 0 ∨ (a.userKey = b.userKey ∧ b.trailer < a.trailer)

instance : DecidableRel ikLt := by
  intro a b
  unfold ikLt
  infer_instance

theorem ikLt_irrefl (k : InternalKey) : ¬ ikLt k k := by
  intro h
  rcases h with h | ⟨_, h⟩
  · rw [(bytesCompare_eq_zero_iff k.userKey k.userKey).mpr rfl] at h
    omega
  · omega

theorem ikLt_trans {a b c : InternalKey} (hab : ikLt a b) (hbc : ikLt b c) : ikLt a c := by
  rcases hab with hab | ⟨hab, hab2⟩
  · rcases hbc with hbc | ⟨hbc, hbc2⟩
    · exact Or.inl (bytesCompare_lt_trans _ _ _ hab hbc)
    · exact Or.inl (hbc ▸ hab)
  · rcases hbc with hbc | ⟨hbc, hbc2⟩
    · exact Or.inl (hab ▸ hbc)
    · exact Or.inr ⟨hab.trans hbc, by omega⟩

theorem ikLt_asymm {a b : InternalKey} (hab : ikLt a b) : ¬ ikLt b a := by
  intro hba
  exact ikLt_irrefl a (ikLt_trans hab hba)

theorem ikLt_connex {a b : InternalKey} (hab : ¬ ikLt a b) (hba : ¬ ikLt b a) : a = b := by
  unfold ikLt at hab hba
  push_neg at hab hba
  rcases bytesCompare_values a.userKey b.userKey with h | h | h
  · omega
  · have huk : a.userKey = b.userKey := (bytesCompare_eq_zero_iff _ _).mp h
    have h1 := hab.2 huk
    have h2 := hba.2 huk.symm
    cases a; cases b
    simp_all
    omega
  · have h' : bytesCompare b.userKey a.userKey < 0 := by
      rw [bytesCompare_swap]
      omega
    omega

/-! ## The trailer encoding (`internal/base/kv.go`)

`MakeTrailer(seq, kind) = (seq << 8) | kind` over `uint64`; `SeqNum`
shifts right by 8; `Kind` masks the low byte.  Values are modelled as
`Nat` with the 64-bit reduction written explicitly. -/

/-- 2^64, the modulus of Go's `uint64` arithmetic. -/
def w64 : Nat := 2 ^ 64

/-- `base.MakeTrailer`: `(InternalKeyTrailer(seqNum) << 8) | InternalKeyTrailer(kind)`
computed in `uint64`. -/
def MakeTrailer (seqNum kind : Nat) : Nat :=
  (((seqNum % w64) <<< 8) % w64) ||| (kind % w64)

/-- `InternalKeyTrailer.SeqNum`: `t >> 8`. -/
def trailerSeqNum (t : Nat) : Nat := t >>> 8

/-- `InternalKeyTrailer.Kind`: `t & 0xff`. -/
def trailerKind (t : Nat) : Nat := t &&& 0xff

/-- `base.SeqNumMax = 1<<56 - 1`: the largest valid sequence number. -/
def SeqNumMax : Nat := 2 ^ 56 - 1

/-- `base.InternalKeyKindSet = 1`. -/
def InternalKeyKindSet : Nat := 1

/-- `base.InternalKeyKindMax = 23`. -/
def InternalKeyKindMax : Nat := 23

theorem MakeTrailer_eq (seqNum kind : Nat) (hs : seqNum < 2 ^ 56) (hk : kind < 256) :
    MakeTrailer seqNum kind = seqNum * 256 + kind := by
  unfold MakeTrailer w64
  have hs64 : seqNum % 2 ^ 64 = seqNum := Nat.mod_eq_of_lt (by omega)
  have hk64 : kind % 2 ^ 64 = kind := Nat.mod_eq_of_lt (by omega)
  rw [hs64, hk64, Nat.shiftLeft_eq]
  have hsh : seqNum * 2 ^ 8 % 2 ^ 64 = seqNum * 2 ^ 8 := by
    apply Nat.mod_eq_of_lt
    have : seqNum * 2 ^ 8 < 2 ^ 56 * 2 ^ 8 := by
      exact Nat.mul_lt_mul_of_lt_of_le hs (le_refl _) (by norm_num)
    omega
  rw [hsh]
  have hor := Nat.mul_add_lt_is_or (i := 8) (b := kind) (by omega) seqNum
  calc seqNum * 2 ^ 8 ||| kind = 2 ^ 8 * seqNum ||| kind := by ring_nf
    _ = 2 ^ 8 * seqNum + kind := by rw [← hor]
    _ = seqNum * 256 + kind := by ring

/-- C3: for every `seq ∈ [0, 2^56)` and `kind ∈ [0, 255]`,
`MakeTrailer(seq, kind)` equals `(seq << 8) | kind` as a 64-bit value
(no wrap-around occurs), and the round-trip holds:
`MakeTrailer(seq, kind).SeqNum() = seq` and `MakeTrailer(seq, kind).Kind() = kind`. -/
theorem trailer_round_trip (seqNum kind : Nat) (hs : seqNum < 2 ^ 56) (hk : kind < 256) :
    MakeTrailer seqNum kind = (seqNum <<< 8) ||| kind ∧
    MakeTrailer seqNum kind < w64 ∧
    trailerSeqNum (MakeTrailer seqNum kind) = seqNum ∧
    trailerKind (MakeTrailer seqNum kind) = kind := by
  have heq := MakeTrailer_eq seqNum kind hs hk
  have hlt : seqNum * 256 + kind < w64 := by
    unfold w64
    have : seqNum * 256 ≤ (2 ^ 56 - 1) * 256 := Nat.mul_le_mul_right 256 (by omega)
    omega
  refine ⟨?_, by omega, ?_, ?_⟩
  · rw [heq, Nat.shiftLeft_eq]
    have hor := Nat.mul_add_lt_is_or (i := 8) (b := kind) (by omega) seqNum
    calc seqNum * 256 + kind = 2 ^ 8 * seqNum + kind := by ring
      _ = 2 ^ 8 * seqNum ||| kind := hor
      _ = seqNum * 2 ^ 8 ||| kind := by ring_nf
  · rw [heq]
    unfold trailerSeqNum
    rw [Nat.shiftRight_eq_div_pow]
    omega
  · rw [heq]
    unfold trailerKind
    have h255 : (0xff : Nat) = 2 ^ 8 - 1 := by norm_num
    rw [h255, Nat.and_pow_two_sub_one_eq_mod]
    omega

/-- C3 witness: concrete instance at `seq = 10`, `kind = Set = 1`. -/
theorem trailer_round_trip_witness :
    (10 : Nat) < 2 ^ 56 ∧ (1 : Nat) < 256 ∧
    MakeTrailer 10 InternalKeyKindSet = (10 <<< 8) ||| 1 ∧
    trailerSeqNum (MakeTrailer 10 InternalKeyKindSet) = 10 ∧
    trailerKind (MakeTrailer 10 InternalKeyKindSet) = 1 := by
  have h := trailer_round_trip 10 1 (by norm_num) (by norm_num)
  exact ⟨by norm_num, by norm_num, h.1, h.2.2.1, h.2.2.2⟩

/-! ## The bump arena (`internal/util/arena/arena.go`)

The arena holds an atomic watermark `n` (an `arch.AtomicUint`, i.e. a
`uint64` on 64-bit builds) and a byte buffer.  Only the watermark and
the buffer length are observable in the allocation protocol, so the
state is `(n, bufLen)`.  All `uint` arithmetic is reduced mod `2 ^ 64`
exactly where Go wraps.  The `Alignment` enum values are `Align1 = 0`,
`Align2 = 1`, `Align4 = 3`, `Align8 = 7` (one less than the alignment
they request). -/

/-- The observable state of `arena.Arena`: the atomic watermark `n` and
the length of the backing buffer `buf`. -/
structure Arena where
  n : Nat
  bufLen : Nat
  deriving DecidableEq, Repr

/-- `arena.NewArena(size)`: fresh buffer of `size` bytes, watermark `1`
(offset `0` is reserved as the nil pointer). -/
def NewArena (size : Nat) : Arena := { n := 1, bufLen := size }

/-- `arena.Arena.Allocate(size, overflow, align)`, translated line by
line.  Returns `(some (offset, padded), a')` on success and `(none, a')`
on `ErrArenaFull`; the watermark of `a'` reflects that the atomic
`n.Add` has already happened when the post-add check fails. -/
def Arena.Allocate (a : Arena) (size overflow align : Nat) : Option (Nat × Nat) × Arena :=
  -- originalSize := a.n.Load(); if originalSize > len(a.buf) { return ErrArenaFull }
  if a.n > a.bufLen then (none, a)
  else
    -- padded = size + align  (uint addition)
    let padded := (size + align) % w64
    -- newSize := a.n.Add(padded)
    let newSize := (a.n + padded) % w64
    let a' : Arena := { a with n := newSize }
    -- if newSize+overflow > len(a.buf) { return ErrArenaFull }
    if newSize + overflow > a.bufLen then (none, a')
    else
      -- offset = (newSize - padded + align) & ^align
      let offset := (((newSize + (w64 - padded)) % w64 + align) % w64) &&& (w64 - 1 - align)
      (some (offset, padded), a')

/-- `arena.Arena.Len()`: returns the watermark itself (its own comment:
"including the reserved 0th byte and padding"). -/
def Arena.Len (a : Arena) : Nat := a.n

/-- `arena.Arena.Cap()`: the length of the underlying buffer. -/
def Arena.Cap (a : Arena) : Nat := a.bufLen

/-- `arena.Arena.Reset()`: store 1 into the watermark. -/
def Arena.Reset (a : Arena) : Arena := { a with n := 1 }

/-- Run a list of `Allocate` requests `(size, overflow, align)` in
order, collecting each call's result. -/
def runAllocs (a : Arena) : List (Nat × Nat × Nat) → List (Option (Nat × Nat)) × Arena
  | [] => ([], a)
  | q :: rest =>
    let r := a.Allocate q.1 q.2.1 q.2.2
    let out := runAllocs r.2 rest
    (r.1 :: out.1, out.2)

/-- Masking with the complement of `2 ^ k - 1` in 64 bits rounds down to
a multiple of `2 ^ k`. -/
theorem and_high_mask (y k m : Nat) (hy : y < 2 ^ (k + m)) :
    y &&& (2 ^ (k + m) - 2 ^ k) = y / 2 ^ k * 2 ^ k := by
  have hmask : 2 ^ (k + m) - 2 ^ k = (2 ^ m - 1) <<< k := by
    rw [Nat.shiftLeft_eq, Nat.sub_mul, one_mul, ← pow_add, Nat.add_comm m k]
  have hdiv : y / 2 ^ k * 2 ^ k = (y >>> k) <<< k := by
    rw [Nat.shiftRight_eq_div_pow, Nat.shiftLeft_eq]
  rw [hmask, hdiv]
  apply Nat.eq_of_testBit_eq
  intro i
  rw [Nat.testBit_and, Nat.testBit_shiftLeft, Nat.testBit_shiftLeft, Nat.testBit_shiftRight,
    Nat.testBit_two_pow_sub_one]
  by_cases hik : k ≤ i
  · have hki : k + (i - k) = i := by omega
    rw [hki]
    have h1 : (decide (i ≥ k)) = true := by simp [hik]
    rw [h1]
    by_cases him : i - k < m
    · simp [him]
    · have hbig : y < 2 ^ i := by
        calc y < 2 ^ (k + m) := hy
          _ ≤ 2 ^ i := Nat.pow_le_pow_right (by norm_num) (by omega)
      simp [him, Nat.testBit_lt_two_pow hbig]
  · have h1 : (decide (i ≥ k)) = false := by simp [hik]
    rw [h1]
    simp

/-- Single `Allocate` call, no-wrap regime: characterises success and
failure, the watermark advance, and the returned offset. `align` is one
of the `Alignment` enum values `2 ^ k - 1`. -/
theorem Allocate_spec (a : Arena) (size overflow k : Nat) (hk : k ≤ 3)
    (hn : 1 ≤ a.n) (hw : a.n + size + (2 ^ k - 1) + overflow < w64) :
    (a.Allocate size overflow (2 ^ k - 1)).2.bufLen = a.bufLen ∧
    ((a.Allocate size overflow (2 ^ k - 1)).1 = none ↔
      a.bufLen < a.n + size + (2 ^ k - 1) + overflow) ∧
    a.n ≤ (a.Allocate size overflow (2 ^ k - 1)).2.n ∧
    (a.Allocate size overflow (2 ^ k - 1)).2.n ≤ a.n + size + (2 ^ k - 1) ∧
    (∀ off pad, (a.Allocate size overflow (2 ^ k - 1)).1 = some (off, pad) →
      pad = size + (2 ^ k - 1) ∧
      (a.Allocate size overflow (2 ^ k - 1)).2.n = a.n + size + (2 ^ k - 1) ∧
      off % 2 ^ k = 0 ∧
      a.n ≤ off ∧ off + size ≤ (a.Allocate size overflow (2 ^ k - 1)).2.n ∧
      off + size + overflow ≤ a.bufLen) := by
  have hkpos : (0 : Nat) < 2 ^ k := Nat.pos_pow_of_pos k (by norm_num)
  have hk64 : (2 : Nat) ^ k ≤ 2 ^ 3 := Nat.pow_le_pow_right (by norm_num) hk
  set al := 2 ^ k - 1 with hal
  have hpad : (size + al) % w64 = size + al := Nat.mod_eq_of_lt (by unfold w64 at *; omega)
  have hnew : (a.n + (size + al)) % w64 = a.n + (size + al) :=
    Nat.mod_eq_of_lt (by unfold w64 at *; omega)
  have he : a.Allocate size overflow al =
      if a.n > a.bufLen then (none, a)
      else if a.n + (size + al) + overflow > a.bufLen
        then (none, { a with n := a.n + (size + al) })
        else (some ((((a.n + (size + al) + (w64 - (size + al))) % w64 + al) % w64)
                &&& (w64 - 1 - al), size + al),
              { a with n := a.n + (size + al) }) := by
    simp only [Arena.Allocate]
    rw [hpad, hnew]
  by_cases hearly : a.n > a.bufLen
  · rw [if_pos hearly] at he
    have hn2 : (a.Allocate size overflow al).2.n = a.n := by rw [he]
    have hbuf : (a.Allocate size overflow al).2.bufLen = a.bufLen := by rw [he]
    have hres : (a.Allocate size overflow al).1 = none := by rw [he]
    refine ⟨hbuf, ⟨fun _ => by omega, fun _ => hres⟩, by omega, by omega, ?_⟩
    intro off pad hsome
    rw [hres] at hsome
    simp at hsome
  · rw [if_neg hearly] at he
    by_cases hfull : a.n + (size + al) + overflow > a.bufLen
    · rw [if_pos hfull] at he
      have hn2 : (a.Allocate size overflow al).2.n = a.n + (size + al) := by rw [he]
      have hbuf : (a.Allocate size overflow al).2.bufLen = a.bufLen := by rw [he]
      have hres : (a.Allocate size overflow al).1 = none := by rw [he]
      refine ⟨hbuf, ⟨fun _ => by omega, fun _ => hres⟩, by omega, by omega, ?_⟩
      intro off pad hsome
      rw [hres] at hsome
      simp at hsome
    · rw [if_neg hfull] at he
      have hwm : a.n + (size + al) + (w64 - (size + al)) = a.n + w64 := by
        unfold w64 at *; omega
      have hsub : (a.n + (size + al) + (w64 - (size + al))) % w64 = a.n := by
        rw [hwm, Nat.add_mod_right]
        exact Nat.mod_eq_of_lt (by unfold w64 at *; omega)
      have hsum : (a.n + al) % w64 = a.n + al := Nat.mod_eq_of_lt (by unfold w64 at *; omega)
      have hmask : w64 - 1 - al = 2 ^ (k + (64 - k)) - 2 ^ k := by
        have hks : k + (64 - k) = 64 := by omega
        rw [hks]
        unfold w64
        omega
      have hoff : ((a.n + (size + al) + (w64 - (size + al))) % w64 + al) % w64 &&& (w64 - 1 - al)
          = (a.n + al) / 2 ^ k * 2 ^ k := by
        rw [hsub, hsum, hmask]
        apply and_high_mask
        have hks : k + (64 - k) = 64 := by omega
        rw [hks]
        unfold w64 at *
        omega
      rw [hoff] at he
      have hn2 : (a.Allocate size overflow al).2.n = a.n + (size + al) := by rw [he]
      have hbuf : (a.Allocate size overflow al).2.bufLen = a.bufLen := by rw [he]
      have hres : (a.Allocate size overflow al).1
          = some ((a.n + al) / 2 ^ k * 2 ^ k, size + al) := by rw [he]
      refine ⟨hbuf, ⟨fun hc => ?_, fun hc => False.elim (by omega)⟩, by omega, by omega, ?_⟩
      · rw [hres] at hc
        simp at hc
      · intro off pad hsome
        rw [hres] at hsome
        simp only [Option.some.injEq, Prod.mk.injEq] at hsome
        obtain ⟨hoffeq, hpadeq⟩ := hsome
        have hmod := Nat.div_add_mod (a.n + al) (2 ^ k)
        have hmlt : (a.n + al) % 2 ^ k < 2 ^ k := Nat.mod_lt _ hkpos
        have hcm : (a.n + al) / 2 ^ k * 2 ^ k = 2 ^ k * ((a.n + al) / 2 ^ k) :=
          Nat.mul_comm _ _
        refine ⟨hpadeq.symm, by omega, ?_, ?_, ?_, ?_⟩
        · rw [← hoffeq]
          exact Nat.mul_mod_left _ _
        · omega
        · omega
        · omega

/-- C4 counterexample: with `size = 2^64 − 7` (a legal Go `uint`),
`padded = size + align` wraps to `0`, so `Allocate` on a fresh 16-byte
arena succeeds — yet the returned range `[8, 8 + size)` escapes
`[1, buffer_length − overflow]` and the watermark does not advance by
`size + alignment − 1`.  This refutes the claim as universally stated. -/
theorem allocate_wrap_counterexample :
    ((NewArena 16).Allocate (w64 - 7) 0 7).1 = some (8, 0) ∧
    ¬ (8 + (w64 - 7) ≤ 16 - 0) ∧
    ((NewArena 16).Allocate (w64 - 7) 0 7).2.n ≠ 1 + ((w64 - 7) + 8 - 1) := by
  refine ⟨?_, by unfold w64; omega, ?_⟩
  · rfl
  · show (1 : Nat) ≠ 1 + (w64 - 7 + 8 - 1)
    unfold w64
    omega

/-- Enum values of `arena.Alignment` are exactly `2 ^ k - 1` for `k ≤ 3`. -/
theorem alignment_enum_pow {al : Nat} (h : al = 0 ∨ al = 1 ∨ al = 3 ∨ al = 7) :
    ∃ k, k ≤ 3 ∧ al = 2 ^ k - 1 := by
  rcases h with h | h | h | h
  · exact ⟨0, by omega, by simp [h]⟩
  · exact ⟨1, by omega, by simp [h]⟩
  · exact ⟨2, by omega, by omega⟩
  · exact ⟨3, by omega, by omega⟩

/-- Run-level allocation facts: every successful call in a sequential
run of `Allocate` calls returns a padded size of `size + align`, an
aligned offset at or above the entry watermark, a range inside
`[1, bufLen − overflow]`, and the ranges of successive successful
allocations are mutually disjoint (earlier ends at or before later
begins). -/
theorem runAllocs_spec (reqs : List (Nat × Nat × Nat)) (a : Arena)
    (haligns : ∀ q ∈ reqs, q.2.2 = 0 ∨ q.2.2 = 1 ∨ q.2.2 = 3 ∨ q.2.2 = 7)
    (hn : 1 ≤ a.n)
    (hbudget : a.n + ((reqs.map fun q => q.1 + q.2.1 + q.2.2).sum) < w64) :
    List.Forall₂ (fun (q : Nat × Nat × Nat) (res : Option (Nat × Nat)) =>
        ∀ off pad, res = some (off, pad) →
          pad = q.1 + q.2.2 ∧ off % (q.2.2 + 1) = 0 ∧ a.n ≤ off ∧
          off + q.1 + q.2.1 ≤ a.bufLen)
      reqs (runAllocs a reqs).1 ∧
    (runAllocs a reqs).2.bufLen = a.bufLen ∧
    a.n ≤ (runAllocs a reqs).2.n ∧
    List.Pairwise (fun (x y : (Nat × Nat × Nat) × Option (Nat × Nat)) =>
        ∀ off1 pad1 off2 pad2,
          x.2 = some (off1, pad1) → y.2 = some (off2, pad2) → off1 + x.1.1 ≤ off2)
      (reqs.zip (runAllocs a reqs).1) := by
  induction reqs generalizing a with
  | nil => simp [runAllocs]
  | cons q rest ih =>
    obtain ⟨k, hk, halq⟩ := alignment_enum_pow (haligns q (by simp))
    have hbq : a.n + q.1 + (2 ^ k - 1) + q.2.1 < w64 := by
      have hsum : (List.map (fun q => q.1 + q.2.1 + q.2.2) (q :: rest)).sum
          = (q.1 + q.2.1 + q.2.2) + (List.map (fun q => q.1 + q.2.1 + q.2.2) rest).sum := by
        simp
      rw [hsum] at hbudget
      omega
    have hspec := Allocate_spec a q.1 q.2.1 k hk hn hbq
    rw [← halq] at hspec
    have hrw : runAllocs a (q :: rest)
        = ((a.Allocate q.1 q.2.1 q.2.2).1 :: (runAllocs (a.Allocate q.1 q.2.1 q.2.2).2 rest).1,
           (runAllocs (a.Allocate q.1 q.2.1 q.2.2).2 rest).2) := rfl
    set a1 := (a.Allocate q.1 q.2.1 q.2.2).2 with ha1
    have hn1 : 1 ≤ a1.n := le_trans hn hspec.2.2.1
    have hb1 : a1.n + ((rest.map fun q => q.1 + q.2.1 + q.2.2).sum) < w64 := by
      have hup := hspec.2.2.2.1
      have hsum : (List.map (fun q => q.1 + q.2.1 + q.2.2) (q :: rest)).sum
          = (q.1 + q.2.1 + q.2.2) + (List.map (fun q => q.1 + q.2.1 + q.2.2) rest).sum := by
        simp
      rw [hsum] at hbudget
      have halq2 : q.2.2 = 2 ^ k - 1 := halq
      omega
    have ihr := ih a1 (fun p hp => haligns p (by simp [hp])) hn1 hb1
    rw [hrw]
    refine ⟨?_, ?_, ?_, ?_⟩
    · refine List.Forall₂.cons ?_ (ihr.1.imp ?_)
      · intro off pad hsome
        have h5 := hspec.2.2.2.2 off pad hsome
        have hq1 : q.2.2 + 1 = 2 ^ k := by
          have : (1 : Nat) ≤ 2 ^ k := Nat.one_le_two_pow
          omega
        refine ⟨h5.1, ?_, h5.2.2.2.1, ?_⟩
        · rw [hq1]; exact h5.2.2.1
        · have := h5.2.2.2.2.2
          omega
      · intro p res hpr off pad hsome
        have h := hpr off pad hsome
        have hbuf : a1.bufLen = a.bufLen := hspec.1
        exact ⟨h.1, h.2.1, le_trans hspec.2.2.1 h.2.2.1, by rw [← hbuf]; exact h.2.2.2⟩
    · rw [ihr.2.1]; exact hspec.1
    · exact le_trans hspec.2.2.1 ihr.2.2.1
    · have hzip : (q :: rest).zip ((a.Allocate q.1 q.2.1 q.2.2).1
          :: (runAllocs a1 rest).1)
          = (q, (a.Allocate q.1 q.2.1 q.2.2).1) :: rest.zip (runAllocs a1 rest).1 := rfl
      rw [hzip]
      refine List.Pairwise.cons ?_ ihr.2.2.2
      intro y hy off1 pad1 off2 pad2 h1 h2
      have hhead := hspec.2.2.2.2 off1 pad1 h1
      have hmem := (List.forall₂_iff_zip.mp ihr.1).2 hy
      have htail := hmem off2 pad2 h2
      have : off1 + q.1 ≤ a1.n := by
        have := hhead.2.2.2.2.1
        omega
      exact le_trans this htail.2.2.1

/-- C4 (amended with a no-wrap precondition): starting from a fresh
arena, provided the cumulative requested bytes stay below `2^64` (so no
`uint` wrap-around occurs) and each `align` is an `Alignment` enum
value: every successful `Allocate` returns `padded = size + alignment − 1`
(the amount added to the watermark), an offset that is a multiple of
the alignment, a range `[offset, offset + size)` inside
`[1, buffer_length − overflow]`, a call fails exactly when the
post-allocation watermark would exceed `buffer_length − overflow`, and
the ranges of any two distinct successful allocations are disjoint
(the earlier one ends before the later one begins). -/
theorem allocate_spec_amended :
    (∀ (a : Arena) (size overflow k : Nat), k ≤ 3 → 1 ≤ a.n →
      a.n + size + (2 ^ k - 1) + overflow < w64 →
      ((a.Allocate size overflow (2 ^ k - 1)).1 = none ↔
        a.bufLen < a.n + size + (2 ^ k - 1) + overflow)) ∧
    (∀ (L : Nat) (reqs : List (Nat × Nat × Nat)),
      (∀ q ∈ reqs, q.2.2 = 0 ∨ q.2.2 = 1 ∨ q.2.2 = 3 ∨ q.2.2 = 7) →
      1 + ((reqs.map fun q => q.1 + q.2.1 + q.2.2).sum) < w64 →
      List.Forall₂ (fun (q : Nat × Nat × Nat) (res : Option (Nat × Nat)) =>
          ∀ off pad, res = some (off, pad) →
            pad = q.1 + q.2.2 ∧ off % (q.2.2 + 1) = 0 ∧ 1 ≤ off ∧
            off + q.1 + q.2.1 ≤ L)
        reqs (runAllocs (NewArena L) reqs).1 ∧
      List.Pairwise (fun x y => ∀ off1 pad1 off2 pad2,
          x.2 = some (off1, pad1) → y.2 = some (off2, pad2) → off1 + x.1.1 ≤ off2)
        (reqs.zip (runAllocs (NewArena L) reqs).1)) := by
  constructor
  · intro a size overflow k hk hn hw
    exact (Allocate_spec a size overflow k hk hn hw).2.1
  · intro L reqs haligns hbudget
    have h := runAllocs_spec reqs (NewArena L) haligns (le_refl 1)
      (by simpa [NewArena] using hbudget)
    refine ⟨h.1.imp ?_, h.2.2.2⟩
    intro q res hq off pad hsome
    exact hq off pad hsome

/-- C4 witness: the single-call characterisation applied to a fresh
100-byte arena with `size = 9`, `overflow = 2`, `Align8`, and the run
part applied to one allocation on a fresh 64-byte arena. -/
theorem allocate_spec_amended_witness :
    ((3 : Nat) ≤ 3 ∧ 1 ≤ (NewArena 100).n ∧
      (NewArena 100).n + 9 + (2 ^ 3 - 1) + 2 < w64 ∧
      (∀ q ∈ [((9 : Nat), (0 : Nat), (7 : Nat))],
        q.2.2 = 0 ∨ q.2.2 = 1 ∨ q.2.2 = 3 ∨ q.2.2 = 7) ∧
      1 + (([((9 : Nat), (0 : Nat), (7 : Nat))].map fun q => q.1 + q.2.1 + q.2.2).sum) < w64) ∧
    (((NewArena 100).Allocate 9 2 (2 ^ 3 - 1)).1 = none ↔
      (NewArena 100).bufLen < (NewArena 100).n + 9 + (2 ^ 3 - 1) + 2) ∧
    List.Forall₂ (fun (q : Nat × Nat × Nat) (res : Option (Nat × Nat)) =>
        ∀ off pad, res = some (off, pad) →
          pad = q.1 + q.2.2 ∧ off % (q.2.2 + 1) = 0 ∧ 1 ≤ off ∧ off + q.1 + q.2.1 ≤ 64)
      [((9 : Nat), (0 : Nat), (7 : Nat))] (runAllocs (NewArena 64) [(9, 0, 7)]).1 := by
  refine ⟨⟨le_refl 3, by decide, by decide, by decide, by decide⟩, ?_, ?_⟩
  · exact allocate_spec_amended.1 (NewArena 100) 9 2 3 (le_refl 3) (by decide) (by decide)
  · exact (allocate_spec_amended.2 64 [(9, 0, 7)] (by decide) (by decide)).1

/-- C9 counterexample: a freshly constructed arena reports `Len = 1`
(the watermark itself, which includes the reserved 0th byte), not
`watermark − 1 = 0` as the claim states. -/
theorem arena_len_counterexample :
    (NewArena 16).Len = 1 ∧ (NewArena 16).n - 1 = 0 ∧
    (NewArena 16).Len ≠ (NewArena 16).n - 1 := by
  refine ⟨rfl, rfl, ?_⟩
  decide

/-- C9 (amended): `Len` returns the watermark itself (so a freshly
constructed arena, and an arena after `Reset`, reports `Len = 1`), `Cap`
returns the full buffer length (this arena stores no construction-time
overflow), and `Reset` sets the watermark to 1. -/
theorem arena_accessors_spec (size : Nat) (a : Arena) :
    a.Len = a.n ∧ a.Cap = a.bufLen ∧
    (NewArena size).Len = 1 ∧ (NewArena size).Cap = size ∧
    a.Reset.n = 1 ∧ a.Reset.Len = 1 ∧ a.Reset.bufLen = a.bufLen := by
  exact ⟨rfl, rfl, rfl, rfl, rfl, rfl, rfl⟩

/-! ## Memtable construction size (`pkg/memtable/memtable.go`, `New`)

`New` clamps the requested size to at least one direct-I/O block and
otherwise rounds it down to a whole number of blocks, then allocates the
skiplist arena with that many bytes. -/

/-- `directio.BlockSize` (external `github.com/ncw/directio` constant): 4096. -/
def BlockSize : Nat := 4096

/-- The size-rounding logic of `memtable.New` before `arena.NewArena(size)`
is called: below one block clamp up to a single block, otherwise strip
the remainder `size % BlockSize`. -/
def memtableArenaSize (size : Nat) : Nat :=
  if size < BlockSize then BlockSize
  else size - size % BlockSize

/-- C10: `memtable.New` gives the backing arena a capacity of exactly
4096 bytes when `size < 4096`, and otherwise `size` rounded down to the
nearest multiple of 4096; when the request is at least one block the
capacity never exceeds the request. -/
theorem memtable_new_capacity (size : Nat) :
    (size < 4096 → (NewArena (memtableArenaSize size)).Cap = 4096) ∧
    (4096 ≤ size →
      (NewArena (memtableArenaSize size)).Cap = 4096 * (size / 4096) ∧
      (NewArena (memtableArenaSize size)).Cap % 4096 = 0 ∧
      (NewArena (memtableArenaSize size)).Cap ≤ size) := by
  have hcap : ∀ m, (NewArena m).Cap = m := fun _ => rfl
  constructor
  · intro hlt
    rw [hcap]
    unfold memtableArenaSize BlockSize
    rw [if_pos hlt]
  · intro hge
    have hnlt : ¬ size < 4096 := by omega
    have hmod := Nat.div_add_mod size 4096
    have hmlt : size % 4096 < 4096 := Nat.mod_lt _ (by norm_num)
    rw [hcap]
    unfold memtableArenaSize BlockSize
    rw [if_neg hnlt]
    refine ⟨by omega, ?_, by omega⟩
    have hsub : size - size % 4096 = 4096 * (size / 4096) := by omega
    rw [hsub]
    exact Nat.mul_mod_right _ _

/-- C10 witness: concrete requests of 100 (below one block) and 10000
(between two and three blocks) bytes. -/
theorem memtable_new_capacity_witness :
    ((100 : Nat) < 4096 ∧ (NewArena (memtableArenaSize 100)).Cap = 4096) ∧
    ((4096 : Nat) ≤ 10000 ∧ (NewArena (memtableArenaSize 10000)).Cap = 4096 * (10000 / 4096) ∧
      (NewArena (memtableArenaSize 10000)).Cap ≤ 10000) := by
  refine ⟨⟨by norm_num, (memtable_new_capacity 100).1 (by norm_num)⟩, ⟨by norm_num, ?_, ?_⟩⟩
  · exact ((memtable_new_capacity 10000).2 (by norm_num)).1
  · exact ((memtable_new_capacity 10000).2 (by norm_num)).2.2

/-! ## The skiplist (`skiplist.go`, its node file and iterator file)

Nodes live in the arena and refer to each other by arena offsets, with
offset `0` the nil pointer.  The embedding replaces byte offsets by
indices into a node store `nodes : List NodeM`: index `0` is a dummy
standing for the nil pointer, index `1` is the head sentinel, index `2`
the tail sentinel, and `Add` appends fresh nodes at the end (the byte
layout inside the arena adds nothing to the list structure, so node
allocation is modelled as appending; `ErrArenaFull` from the node
allocator is covered by the arena theorems above).  Key and value bytes
are stored inline in the node instead of at `keyOffset`/`keySize` in
the arena buffer.  The atomic tower entries `next`/`prev` are lists of
length `maxHeight`; an atomic load reads the current entry and a CAS
compares and conditionally stores, which under the sequential semantics
of this embedding is exact. -/

/-- `maxHeight = 20`. -/
def maxHeight : Nat := 20

/-- A skiplist node: immutable key/trailer/value/height plus the atomic
tower of `(next, prev)` offset pairs (entries beyond `height` stay at
their zero value and are never traversed). -/
structure NodeM where
  key : List Nat
  keyTrailer : Nat
  value : List Nat
  height : Nat
  next : List Nat
  prev : List Nat
  deriving DecidableEq, Repr

/-- The dummy node stored at index `0`, standing for the nil pointer. -/
def nullNode : NodeM :=
  { key := [], keyTrailer := 0, value := [], height := 0,
    next := List.replicate maxHeight 0, prev := List.replicate maxHeight 0 }

/-- The skiplist state: the node store (indices are the model's arena
offsets) and the atomic current height. -/
structure SkiplistM where
  nodes : List NodeM
  height : Nat
  deriving DecidableEq, Repr

/-- Index of the head sentinel in the node store. -/
def headId : Nat := 1

/-- Index of the tail sentinel in the node store. -/
def tailId : Nat := 2

/-- Dereference a node id (out-of-store reads yield the dummy node; the
invariant below shows they never happen on reachable ids). -/
def nodeAt (s : SkiplistM) (x : Nat) : NodeM := s.nodes.getD x nullNode

/-- `Skiplist.getNext`: load `nd.tower[h].nextOffset`. -/
def getNext (s : SkiplistM) (nd level : Nat) : Nat := (nodeAt s nd).next.getD level 0

/-- `Skiplist.getPrev`: load `nd.tower[h].prevOffset`. -/
def getPrev (s : SkiplistM) (nd level : Nat) : Nat := (nodeAt s nd).prev.getD level 0

/-- Replace the node stored at index `x`. -/
def setNode (s : SkiplistM) (x : Nat) (nd : NodeM) : SkiplistM :=
  { s with nodes := s.nodes.set x nd }

/-- Store into `x.tower[level].nextOffset`. -/
def storeNext (s : SkiplistM) (x level v : Nat) : SkiplistM :=
  setNode s x { nodeAt s x with next := (nodeAt s x).next.set level v }

/-- Store into `x.tower[level].prevOffset`. -/
def storePrev (s : SkiplistM) (x level v : Nat) : SkiplistM :=
  setNode s x { nodeAt s x with prev := (nodeAt s x).prev.set level v }

/-- `node.casNextOffset`: sequential compare-and-swap on a next link. -/
def casNext (s : SkiplistM) (x level old new : Nat) : Bool × SkiplistM :=
  if getNext s x level = old then (true, storeNext s x level new) else (false, s)

/-- `node.casPrevOffset`: sequential compare-and-swap on a prev link. -/
def casPrev (s : SkiplistM) (x level old new : Nat) : Bool × SkiplistM :=
  if getPrev s x level = old then (true, storePrev s x level new) else (false, s)

/-- `Skiplist.Reset` on a fresh arena (as run by `NewSkiplist`): head
and tail sentinels with full `maxHeight` towers and zero-length keys;
every `head.next[i]` points to tail and every `tail.prev[i]` to head;
the current height starts at 1. -/
def emptySkiplist : SkiplistM :=
  { nodes := [nullNode,
      { nullNode with height := maxHeight, next := List.replicate maxHeight tailId },
      { nullNode with height := maxHeight, prev := List.replicate maxHeight headId }],
    height := 1 }

/-- The internal key stored at a node. -/
def nodeKey (s : SkiplistM) (x : Nat) : InternalKey :=
  ⟨(nodeAt s x).key, (nodeAt s x).keyTrailer⟩

/-- `Skiplist.findSpliceForLevel`, fuelled loop body: scan right from
`prev` at `level` until the key fits between `prev` and `next` (or an
exact internal-key match is found).  The fuel argument bounds the Go
`for` loop; the invariant proofs show the chain length plus one is
always enough. -/
def findSpliceForLevelGo (s : SkiplistM) (key : InternalKey) (level : Nat) :
    Nat → Nat → Nat × Nat × Bool
  | 0, prev => (prev, tailId, false)
  | fuel + 1, prev =>
    let next := getNext s prev level
    if next = tailId then (prev, next, false)
    else
      let cmp := bytesCompare key.userKey (nodeAt s next).key
      if cmp < 0 then (prev, next, false)
      else if cmp = 0 then
        if key.trailer = (nodeAt s next).keyTrailer then (prev, next, true)
        else if (nodeAt s next).keyTrailer < key.trailer then (prev, next, false)
        else findSpliceForLevelGo s key level fuel next
      else findSpliceForLevelGo s key level fuel next

/-- `Skiplist.findSpliceForLevel` with the standard fuel. -/
def findSpliceForLevel (s : SkiplistM) (key : InternalKey) (level start : Nat) :
    Nat × Nat × Bool :=
  findSpliceForLevelGo s key level (s.nodes.length + 1) start

/-- `Skiplist.keyIsAfterNode`: is `key` strictly after `nd` in the
internal-key order (user key ascending, trailer descending)? -/
def keyIsAfterNode (s : SkiplistM) (nd : Nat) (key : InternalKey) : Bool :=
  let cmp := bytesCompare (nodeAt s nd).key key.userKey
  if cmp < 0 then true
  else if 0 < cmp then false
  else if key.trailer = (nodeAt s nd).keyTrailer then false
  else decide (key.trailer < (nodeAt s nd).keyTrailer)

/-- One `(prev, next)` splice; `0` is the Go nil pointer (the zero
value of a fresh `Inserter`). -/
structure SpliceM where
  prev : Nat
  next : Nat
  deriving DecidableEq, Repr

/-- The caller-owned `Inserter` cache: `spl[maxHeight]` and the cached
list height. -/
structure InserterM where
  spl : List SpliceM
  height : Nat
  deriving DecidableEq, Repr

/-- A fresh zeroed `Inserter` (what `Skiplist.Add` allocates). -/
def freshInserter : InserterM :=
  { spl := List.replicate maxHeight ⟨0, 0⟩, height := 0 }

/-- The descending half of `findSplice`: from `level - 1` down to `0`,
call `findSpliceForLevel` and record the splice; the `found` of the
level-0 call is returned (Go overwrites `found` every iteration). -/
def findSpliceDown (s : SkiplistM) (key : InternalKey) :
    Nat → Nat → InserterM → Bool × InserterM
  | 0, _, ins => (false, ins)
  | level + 1, prev, ins =>
    let r := findSpliceForLevel s key level prev
    let ins1 := { ins with spl := ins.spl.set level ⟨r.1, r.2.1⟩ }
    match level with
    | 0 => (r.2.2, ins1)
    | _ + 1 => findSpliceDown s key level r.1 ins1

/-- The cache-scan half of `findSplice` (only reached when
`ins.height ≥ listHeight`, i.e. never for the fresh inserter of
`Skiplist.Add`): look for the lowest cached splice that still brackets
the key; on success return its level and `spl.prev`, otherwise
`(listHeight, head)`. -/
def findSpliceScan (s : SkiplistM) (key : InternalKey) (ins : InserterM) (listHeight : Nat) :
    Nat → Nat → Nat × Nat
  | 0, level => (level, headId)
  | count + 1, level =>
    let spl := ins.spl.getD level ⟨0, 0⟩
    if getNext s spl.prev level ≠ spl.next then
      findSpliceScan s key ins listHeight count (level + 1)
    else if spl.prev ≠ headId ∧ ¬ (keyIsAfterNode s spl.prev key = true) then
      (listHeight, headId)
    else if spl.next ≠ tailId ∧ keyIsAfterNode s spl.next key = true then
      (listHeight, headId)
    else (level, spl.prev)

/-- `Skiplist.findSplice`. -/
def findSplice (s : SkiplistM) (key : InternalKey) (ins : InserterM) : Bool × InserterM :=
  let listHeight := s.height
  if ins.height < listHeight then
    findSpliceDown s key listHeight headId { ins with height := listHeight }
  else
    let r := findSpliceScan s key ins listHeight listHeight 0
    findSpliceDown s key r.1 r.2 ins

/-- Outcome of `Skiplist.Add` / `addInternal`.  `bug` stands for a Go
panic (either of the two `panic` calls in `addInternal`) or exhaustion
of a loop's fuel; the theorems show it never occurs in sequential
runs from the empty skiplist. -/
inductive AddOut
  | ok
  | recordExists
  | bug
  deriving DecidableEq, Repr

/-- `Skiplist.newNode`: allocate the node (appended to the store) and
bump the list height up to `h` via the CAS retry loop, which in a
sequential run amounts to taking the maximum. -/
def newNodeM (s : SkiplistM) (key : InternalKey) (value : List Nat) (h : Nat) :
    Nat × SkiplistM :=
  let nd : NodeM :=
    { key := key.userKey, keyTrailer := key.trailer, value := value,
      height := h, next := List.replicate maxHeight 0, prev := List.replicate maxHeight 0 }
  (s.nodes.length, { nodes := s.nodes ++ [nd], height := max s.height h })

/-- The inner splice loop of `addInternal` for one level (the Go
`for {}` with the two CASes), fuelled.  Returns the outcome, the new
state, and whether this level had to retry (sets `invalidateSplice`). -/
def linkLevel (key : InternalKey) (ndId level : Nat) :
    Nat → SkiplistM → Nat → Nat → AddOut × SkiplistM × Bool
  | 0, s, _, _ => (.bug, s, true)
  | fuel + 1, s, prev, next =>
    -- nd.tower[i].init(prevOffset, nextOffset)
    let s1 := storePrev (storeNext s ndId level next) ndId level prev
    -- help a straggler: if next.prev[i] ≠ prev but prev.next[i] = next,
    -- CAS next.prev[i] from its current value to prev
    let nextPrev := getPrev s1 next level
    let s2 := if nextPrev ≠ prev then
        (if getNext s1 prev level = next then (casPrev s1 next level nextPrev prev).2 else s1)
      else s1
    let c := casNext s2 prev level next ndId
    if c.1 then
      -- success: fix up next.prev[i] (failure benign) and finish this level
      (.ok, (casPrev c.2 next level prev ndId).2, false)
    else
      -- CAS failed: recompute the splice for this level only
      let r := findSpliceForLevel c.2 key level prev
      if r.2.2 then
        if level ≠ 0 then (.bug, c.2, true)
        else (.recordExists, c.2, true)
      else
        let out := linkLevel key ndId level fuel c.2 r.1 r.2.1
        (out.1, out.2.1, true)

/-- The level loop of `addInternal` (`for i := 0; i < height; i++`),
counting down the remaining levels; `i` is the current level.  A nil
cached `prev` (id 0) means the new node increased the list height and
`(head, tail)` is used; a nil `prev` with non-nil `next` is the first
Go panic. -/
def linkLevels (key : InternalKey) (ndId : Nat) (ins : InserterM) :
    Nat → Nat → SkiplistM → Bool → AddOut × SkiplistM × Bool
  | _, 0, s, inval => (.ok, s, inval)
  | i, count + 1, s, inval =>
    let spl := ins.spl.getD i ⟨0, 0⟩
    if spl.prev = 0 then
      if spl.next ≠ 0 then (.bug, s, inval)
      else
        let r := linkLevel key ndId i (s.nodes.length + 1) s headId tailId
        match r.1 with
        | .ok => linkLevels key ndId ins (i + 1) count r.2.1 (inval || r.2.2)
        | e => (e, r.2.1, inval || r.2.2)
    else
      let r := linkLevel key ndId i (s.nodes.length + 1) s spl.prev spl.next
      match r.1 with
      | .ok => linkLevels key ndId ins (i + 1) count r.2.1 (inval || r.2.2)
      | e => (e, r.2.1, inval || r.2.2)

/-- Update `ins.spl[i].prev := nd` for `i ∈ [0, h)` (the ascending-key
optimisation at the end of `addInternal`). -/
def setSplicePrevs : List SpliceM → Nat → Nat → List SpliceM
  | [], _, _ => []
  | sp :: rest, ndId, h =>
    (if 0 < h then { sp with prev := ndId } else sp) :: setSplicePrevs rest ndId (h - 1)

/-- `Skiplist.addInternal`. -/
def addInternal (s : SkiplistM) (key : InternalKey) (value : List Nat) (h : Nat)
    (ins : InserterM) : AddOut × SkiplistM × InserterM :=
  let f := findSplice s key ins
  if f.1 then (.recordExists, s, f.2)
  else
    let nn := newNodeM s key value h
    let r := linkLevels key nn.1 f.2 0 h nn.2 false
    match r.1 with
    | .ok =>
      if r.2.2 then (.ok, r.2.1, { f.2 with height := 0 })
      else (.ok, r.2.1, { f.2 with spl := setSplicePrevs f.2.spl nn.1 h })
    | e => (e, r.2.1, f.2)

/-- `Skiplist.Add`: a fresh zeroed `Inserter` per call.  The random
height drawn inside `newNode` is passed in as `h` (the height-selection
function itself is verified separately). -/
def sklAdd (s : SkiplistM) (key : InternalKey) (value : List Nat) (h : Nat) :
    AddOut × SkiplistM :=
  let r := addInternal s key value h freshInserter
  (r.1, r.2.1)

/-- An iterator (`Iterator` in the iterator file): current node, the
optional bounds, and the memoised out-of-bound sentinels. -/
structure IteratorM where
  node : Nat
  lower : Option (List Nat)
  upper : Option (List Nat)
  lowerNode : Option Nat
  upperNode : Option Nat
  deriving DecidableEq, Repr

/-- `Skiplist.Iter`: a fresh iterator positioned at head. -/
def sklIter (lower upper : Option (List Nat)) : IteratorM :=
  { node := headId, lower := lower, upper := upper, lowerNode := none, upperNode := none }

/-- The shared body of `Iterator.First` and `Iterator.Next`: step to
`start`'s successor at level 0, stop at tail or the memoised
`upperNode`, decode the key, and apply the upper bound. -/
def iterStepForward (s : SkiplistM) (it : IteratorM) (start : Nat) :
    Option (InternalKey × List Nat) × IteratorM :=
  let nd := getNext s start 0
  let it1 := { it with node := nd }
  if nd = tailId ∨ it.upperNode = some nd then (none, it1)
  else
    match it.upper with
    | some ub =>
      if bytesCompare ub (nodeAt s nd).key ≤ 0 then (none, { it1 with upperNode := some nd })
      else (some (nodeKey s nd, (nodeAt s nd).value), it1)
    | none => (some (nodeKey s nd, (nodeAt s nd).value), it1)

/-- `Iterator.First`: step forward from head. -/
def iterFirst (s : SkiplistM) (it : IteratorM) : Option (InternalKey × List Nat) × IteratorM :=
  iterStepForward s it headId

/-- `Iterator.Next`: step forward from the current node. -/
def iterNext (s : SkiplistM) (it : IteratorM) : Option (InternalKey × List Nat) × IteratorM :=
  iterStepForward s it it.node

/-- Repeated `Next` until it returns nothing, collecting the records. -/
def iterForwardGo (s : SkiplistM) : Nat → IteratorM → List (InternalKey × List Nat)
  | 0, _ => []
  | fuel + 1, it =>
    match iterNext s it with
    | (none, _) => []
    | (some kv, it1) => kv :: iterForwardGo s fuel it1

/-- A full forward iteration with no bounds: `First`, then `Next` until
exhaustion. -/
def iterForward (s : SkiplistM) : List (InternalKey × List Nat) :=
  match iterFirst s (sklIter none none) with
  | (none, _) => []
  | (some kv, it1) => kv :: iterForwardGo s (s.nodes.length + 1) it1

/-- Run a list of `Add` calls `(key, value, height)` from a state,
collecting the keys of the calls that returned success. -/
def runAdds : SkiplistM → List (InternalKey × List Nat × Nat) →
    SkiplistM × List (InternalKey × List Nat)
  | s, [] => (s, [])
  | s, op :: rest =>
    let r := sklAdd s op.1 op.2.1 op.2.2
    let out := runAdds r.2 rest
    (out.1, if r.1 = .ok then (op.1, op.2.1) :: out.2 else out.2)

/-! ## State-update lemmas

Tower stores touch only the `next`/`prev` lists of one node; every
other observable (node count, list height, keys, trailers, values,
node heights, tower lengths) is untouched.  `sameShape` bundles the
untouched observables. -/

/-- Two states with the same node count, list height and per-node
immutable fields (only tower links may differ). -/
def sameShape (s t : SkiplistM) : Prop :=
  t.nodes.length = s.nodes.length ∧ t.height = s.height ∧
  ∀ y, (nodeAt t y).key = (nodeAt s y).key ∧
    (nodeAt t y).keyTrailer = (nodeAt s y).keyTrailer ∧
    (nodeAt t y).value = (nodeAt s y).value ∧
    (nodeAt t y).height = (nodeAt s y).height ∧
    (nodeAt t y).next.length = (nodeAt s y).next.length ∧
    (nodeAt t y).prev.length = (nodeAt s y).prev.length

theorem sameShape_refl (s : SkiplistM) : sameShape s s :=
  ⟨rfl, rfl, fun _ => ⟨rfl, rfl, rfl, rfl, rfl, rfl⟩⟩

theorem sameShape_trans {s t u : SkiplistM} (h1 : sameShape s t) (h2 : sameShape t u) :
    sameShape s u := by
  obtain ⟨a1, b1, c1⟩ := h1
  obtain ⟨a2, b2, c2⟩ := h2
  refine ⟨a2.trans a1, b2.trans b1, fun y => ?_⟩
  obtain ⟨k1, t1, v1, h1, n1, p1⟩ := c1 y
  obtain ⟨k2, t2, v2, h2, n2, p2⟩ := c2 y
  exact ⟨k2.trans k1, t2.trans t1, v2.trans v1, h2.trans h1, n2.trans n1, p2.trans p1⟩

theorem sameShape_nodeKey {s t : SkiplistM} (h : sameShape s t) (y : Nat) :
    nodeKey t y = nodeKey s y := by
  unfold nodeKey
  rw [(h.2.2 y).1, (h.2.2 y).2.1]

theorem nodeAt_setNode (s : SkiplistM) (x : Nat) (nd : NodeM) (y : Nat) :
    nodeAt (setNode s x nd) y =
      if x = y ∧ x < s.nodes.length then nd else nodeAt s y := by
  unfold nodeAt setNode
  rw [List.getD_eq_getElem?_getD, List.getD_eq_getElem?_getD, List.getElem?_set]
  by_cases hxy : x = y
  · subst hxy
    by_cases hx : x < s.nodes.length
    · simp [hx]
    · have hnone : s.nodes[x]? = none := List.getElem?_eq_none (by omega)
      simp [hx, hnone]
  · simp [hxy]

theorem storeNext_sameShape (s : SkiplistM) (x level v : Nat) :
    sameShape s (storeNext s x level v) := by
  refine ⟨by simp [storeNext, setNode], by simp [storeNext, setNode], fun y => ?_⟩
  unfold storeNext
  rw [nodeAt_setNode]
  by_cases hc : x = y ∧ x < s.nodes.length
  · rw [if_pos hc]
    obtain ⟨hxy, hlt⟩ := hc
    subst hxy
    exact ⟨rfl, rfl, rfl, rfl, List.length_set _ _ _, rfl⟩
  · rw [if_neg hc]
    exact ⟨rfl, rfl, rfl, rfl, rfl, rfl⟩

theorem storePrev_sameShape (s : SkiplistM) (x level v : Nat) :
    sameShape s (storePrev s x level v) := by
  refine ⟨by simp [storePrev, setNode], by simp [storePrev, setNode], fun y => ?_⟩
  unfold storePrev
  rw [nodeAt_setNode]
  by_cases hc : x = y ∧ x < s.nodes.length
  · rw [if_pos hc]
    obtain ⟨hxy, hlt⟩ := hc
    subst hxy
    exact ⟨rfl, rfl, rfl, rfl, rfl, List.length_set _ _ _⟩
  · rw [if_neg hc]
    exact ⟨rfl, rfl, rfl, rfl, rfl, rfl⟩

theorem getNext_storeNext (s : SkiplistM) (x level v : Nat)
    (hx : x < s.nodes.length) (hlev : level < (nodeAt s x).next.length) (y j : Nat) :
    getNext (storeNext s x level v) y j =
      if y = x ∧ j = level then v else getNext s y j := by
  unfold getNext storeNext
  rw [nodeAt_setNode]
  by_cases hxy : y = x
  · subst hxy
    rw [if_pos ⟨rfl, hx⟩]
    by_cases hj : j = level
    · subst hj
      rw [if_pos ⟨rfl, rfl⟩]
      show ((nodeAt s y).next.set j v).getD j 0 = v
      rw [List.getD_eq_getElem?_getD, List.getElem?_set_self hlev]
      rfl
    · rw [if_neg (fun hc => hj hc.2)]
      show ((nodeAt s y).next.set level v).getD j 0 = (nodeAt s y).next.getD j 0
      rw [List.getD_eq_getElem?_getD, List.getD_eq_getElem?_getD,
        List.getElem?_set_ne (fun hc => hj hc.symm)]
  · rw [if_neg (fun hc => hxy hc.1.symm), if_neg (fun hc => hxy hc.1)]

theorem getPrev_storeNext (s : SkiplistM) (x level v : Nat) (y j : Nat) :
    getPrev (storeNext s x level v) y j = getPrev s y j := by
  unfold getPrev storeNext
  rw [nodeAt_setNode]
  by_cases hc : x = y ∧ x < s.nodes.length
  · rw [if_pos hc]
    obtain ⟨hxy, hlt⟩ := hc
    subst hxy
    rfl
  · rw [if_neg hc]

theorem getNext_storePrev (s : SkiplistM) (x level v : Nat) (y j : Nat) :
    getNext (storePrev s x level v) y j = getNext s y j := by
  unfold getNext storePrev
  rw [nodeAt_setNode]
  by_cases hc : x = y ∧ x < s.nodes.length
  · rw [if_pos hc]
    obtain ⟨hxy, hlt⟩ := hc
    subst hxy
    rfl
  · rw [if_neg hc]

theorem getNext_casPrev (s : SkiplistM) (x level old new : Nat) (y j : Nat) :
    getNext (casPrev s x level old new).2 y j = getNext s y j := by
  unfold casPrev
  by_cases hc : getPrev s x level = old
  · rw [if_pos hc]
    exact getNext_storePrev s x level new y j
  · rw [if_neg hc]

theorem casPrev_sameShape (s : SkiplistM) (x level old new : Nat) :
    sameShape s (casPrev s x level old new).2 := by
  unfold casPrev
  by_cases hc : getPrev s x level = old
  · rw [if_pos hc]
    exact storePrev_sameShape s x level new
  · rw [if_neg hc]
    exact sameShape_refl s

/-! ## Chains

`NextChain s level x l` says that following `next` pointers at `level`
from `x` visits exactly the nodes in `l` and then reaches the tail
sentinel. -/

inductive NextChain (s : SkiplistM) (level : Nat) : Nat → List Nat → Prop
  | nil : ∀ x, getNext s x level = tailId → NextChain s level x []
  | cons : ∀ x y l, getNext s x level = y → y ≠ tailId → NextChain s level y l →
      NextChain s level x (y :: l)

theorem nextChain_unique {s : SkiplistM} {level x : Nat} {l1 l2 : List Nat}
    (h1 : NextChain s level x l1) (h2 : NextChain s level x l2) : l1 = l2 := by
  induction h1 generalizing l2 with
  | nil x hx =>
    cases h2 with
    | nil _ _ => rfl
    | cons _ y l hy hyt _ => exact absurd (hy.symm.trans hx) hyt
  | cons x y l hy hyt hchain ih =>
    cases h2 with
    | nil _ hx => exact absurd (hy.symm.trans hx) hyt
    | cons _ y2 l2 hy2 hyt2 hchain2 =>
      have hyy : y = y2 := hy.symm.trans hy2
      subst hyy
      rw [ih hchain2]

theorem nextChain_suffix {s : SkiplistM} {level x : Nat} {l : List Nat}
    (h : NextChain s level x l) :
    ∀ y ∈ l, ∃ l1 l2, l = l1 ++ y :: l2 ∧ NextChain s level y l2 := by
  induction h with
  | nil x hx => intro y hy; cases hy
  | cons x z l hz hzt hchain ih =>
    intro y hy
    rcases List.mem_cons.mp hy with hyz | hyl
    · subst hyz
      exact ⟨[], l, rfl, hchain⟩
    · obtain ⟨l1, l2, heq, hch⟩ := ih y hyl
      exact ⟨z :: l1, l2, by rw [heq]; rfl, hch⟩

/-- A chain is insensitive to state changes that preserve the `next`
pointers of its start and members at its level. -/
theorem nextChain_congr {s t : SkiplistM} {level x : Nat} {l : List Nat}
    (h : NextChain s level x l)
    (hsame : getNext t x level = getNext s x level)
    (hmem : ∀ y ∈ l, getNext t y level = getNext s y level) :
    NextChain t level x l := by
  induction h with
  | nil x hx => exact NextChain.nil x (hsame.trans hx)
  | cons x y l hy hyt hchain ih =>
    refine NextChain.cons x y l (hsame.trans hy) hyt ?_
    exact ih (hmem y (by simp)) (fun z hz => hmem z (by simp [hz]))

/-! ## The skiplist invariant -/

/-- Level invariant: the chain from head at `level` visits exactly the
real nodes whose towers reach above `level`, in strictly increasing
internal-key order. -/
structure LevelInv (s : SkiplistM) (level : Nat) (l : List Nat) : Prop where
  chain : NextChain s level headId l
  mem_lo : ∀ x ∈ l, 3 ≤ x
  mem_hi : ∀ x ∈ l, x < s.nodes.length
  mem_height : ∀ x ∈ l, level < (nodeAt s x).height
  complete : ∀ x, 3 ≤ x → x < s.nodes.length → level < (nodeAt s x).height → x ∈ l
  sorted : List.Pairwise (fun a b => ikLt (nodeKey s a) (nodeKey s b)) l

/-- Global skiplist invariant. -/
structure Inv (s : SkiplistM) : Prop where
  nodes_len : 3 ≤ s.nodes.length
  height_pos : 1 ≤ s.height
  height_le : s.height ≤ maxHeight
  node_height_pos : ∀ x, 3 ≤ x → x < s.nodes.length → 1 ≤ (nodeAt s x).height
  node_height_le : ∀ x, 3 ≤ x → x < s.nodes.length → (nodeAt s x).height ≤ s.height
  towers : ∀ x, x < s.nodes.length →
    (nodeAt s x).next.length = maxHeight ∧ (nodeAt s x).prev.length = maxHeight
  levels : ∀ level, level < maxHeight → ∃ l, LevelInv s level l

/-- The key is stored at some real node (all real nodes have positive
height, so this is exactly membership in the level-0 chain). -/
def keyPresent (s : SkiplistM) (key : InternalKey) : Prop :=
  ∃ x, 3 ≤ x ∧ x < s.nodes.length ∧ 0 < (nodeAt s x).height ∧ nodeKey s x = key

/-- What `findSplice` guarantees about the splice it records at
`level`: `prev` is head or a real node reaching above `level` whose key
is strictly before the sought key, and `next` is `prev`'s current
successor, itself head-free (tail or a real node reaching above
`level`). -/
def goodSplice (s : SkiplistM) (key : InternalKey) (level : Nat) (sp : SpliceM) : Prop :=
  (sp.prev = headId ∨ (3 ≤ sp.prev ∧ sp.prev < s.nodes.length ∧
    level < (nodeAt s sp.prev).height ∧ ikLt (nodeKey s sp.prev) key)) ∧
  getNext s sp.prev level = sp.next ∧
  (sp.next = tailId ∨ (3 ≤ sp.next ∧ sp.next < s.nodes.length ∧
    level < (nodeAt s sp.next).height))

theorem inv_empty : Inv emptySkiplist := by
  have hnode : ∀ level < maxHeight, getNext emptySkiplist headId level = tailId := by
    intro level hlev
    show (nodeAt emptySkiplist 1).next.getD level 0 = tailId
    have h1 : nodeAt emptySkiplist 1 =
        { nullNode with height := maxHeight, next := List.replicate maxHeight tailId } := rfl
    rw [h1]
    show (List.replicate maxHeight tailId).getD level 0 = tailId
    rw [List.getD_eq_getElem?_getD, List.getElem?_replicate, if_pos hlev]
    rfl
  refine ⟨by simp [emptySkiplist], le_refl 1, by norm_num [emptySkiplist, maxHeight], ?_, ?_, ?_, ?_⟩
  · intro x h3 hlen
    simp [emptySkiplist] at hlen
    omega
  · intro x h3 hlen
    simp [emptySkiplist] at hlen
    omega
  · intro x hlen
    simp [emptySkiplist] at hlen
    interval_cases x <;> simp [nodeAt, emptySkiplist, nullNode, maxHeight]
  · intro level hlev
    refine ⟨[], NextChain.nil headId (hnode level hlev), ?_, ?_, ?_, ?_, List.Pairwise.nil⟩
    · intro x hx; cases hx
    · intro x hx; cases hx
    · intro x hx; cases hx
    · intro x h3 hlen
      simp [emptySkiplist] at hlen
      omega

/-- A sorted chain has no duplicate nodes, so its length is bounded by
the number of real nodes. -/
theorem levelInv_length {s : SkiplistM} {level : Nat} {l : List Nat}
    (hn : 3 ≤ s.nodes.length) (hLI : LevelInv s level l) :
    l.length + 3 ≤ s.nodes.length := by
  have hnd : l.Nodup := by
    refine hLI.sorted.imp ?_
    intro a b hab hc
    subst hc
    exact ikLt_irrefl _ hab
  have hsub : l.toFinset ⊆ Finset.Ico 3 s.nodes.length := by
    intro x hx
    rw [List.mem_toFinset] at hx
    rw [Finset.mem_Ico]
    exact ⟨hLI.mem_lo x hx, hLI.mem_hi x hx⟩
  have hcard := Finset.card_le_card hsub
  rw [List.toFinset_card_of_nodup hnd, Nat.card_Ico] at hcard
  omega

/-! ## `findSpliceForLevel` specification -/

theorem fslGo_spec (s : SkiplistM) (key : InternalKey) (level : Nat) :
    ∀ (l : List Nat) (prev fuel : Nat),
    NextChain s level prev l →
    l.length < fuel →
    ∃ l1 l2, l = l1 ++ l2 ∧
      (∀ x ∈ l1, ikLt (nodeKey s x) key) ∧
      ((findSpliceForLevelGo s key level fuel prev).1 = prev ∨
        (findSpliceForLevelGo s key level fuel prev).1 ∈ l1) ∧
      NextChain s level (findSpliceForLevelGo s key level fuel prev).1 l2 ∧
      (findSpliceForLevelGo s key level fuel prev).2.1
        = getNext s (findSpliceForLevelGo s key level fuel prev).1 level ∧
      ((findSpliceForLevelGo s key level fuel prev).2.2 = true →
        ∃ y l2t, l2 = y :: l2t ∧ nodeKey s y = key) ∧
      ((findSpliceForLevelGo s key level fuel prev).2.2 = false →
        l2 = [] ∨ ∃ y l2t, l2 = y :: l2t ∧ ikLt key (nodeKey s y)) := by
  intro l
  induction l with
  | nil =>
    intro prev fuel hchain hfuel
    cases hchain with
    | nil _ hnx =>
      obtain ⟨f, rfl⟩ : ∃ f, fuel = f + 1 := ⟨fuel - 1, by omega⟩
      refine ⟨[], [], rfl, by simp, ?_⟩
      rw [show findSpliceForLevelGo s key level (f + 1) prev
            = (prev, getNext s prev level, false) by
          unfold findSpliceForLevelGo
          rw [if_pos hnx]]
      refine ⟨Or.inl rfl, NextChain.nil prev hnx, rfl, by simp, fun _ => Or.inl rfl⟩
  | cons y l ih =>
    intro prev fuel hchain hfuel
    cases hchain with
    | cons _ _ _ hnx hyt hrest =>
      obtain ⟨f, rfl⟩ : ∃ f, fuel = f + 1 := ⟨fuel - 1, by omega⟩
      have hunfold : findSpliceForLevelGo s key level (f + 1) prev =
          (if getNext s prev level = tailId then (prev, getNext s prev level, false)
           else
             let cmp := bytesCompare key.userKey (nodeAt s (getNext s prev level)).key
             if cmp < 0 then (prev, getNext s prev level, false)
             else if cmp = 0 then
               if key.trailer = (nodeAt s (getNext s prev level)).keyTrailer then
                 (prev, getNext s prev level, true)
               else if (nodeAt s (getNext s prev level)).keyTrailer < key.trailer then
                 (prev, getNext s prev level, false)
               else findSpliceForLevelGo s key level f (getNext s prev level)
             else findSpliceForLevelGo s key level f (getNext s prev level)) := rfl
      rw [hnx] at hunfold
      rw [if_neg hyt] at hunfold
      by_cases hlt : bytesCompare key.userKey (nodeAt s y).key < 0
      · rw [if_pos hlt] at hunfold
        refine ⟨[], y :: l, rfl, by simp, ?_⟩
        rw [hunfold]
        refine ⟨Or.inl rfl, NextChain.cons prev y l hnx hyt hrest, by rw [hnx], by simp, ?_⟩
        intro _
        exact Or.inr ⟨y, l, rfl, Or.inl hlt⟩
      · rw [if_neg hlt] at hunfold
        by_cases heq : bytesCompare key.userKey (nodeAt s y).key = 0
        · rw [if_pos heq] at hunfold
          have huk : key.userKey = (nodeAt s y).key := (bytesCompare_eq_zero_iff _ _).mp heq
          by_cases htr : key.trailer = (nodeAt s y).keyTrailer
          · rw [if_pos htr] at hunfold
            refine ⟨[], y :: l, rfl, by simp, ?_⟩
            rw [hunfold]
            refine ⟨Or.inl rfl, NextChain.cons prev y l hnx hyt hrest, by rw [hnx], ?_, ?_⟩
            · intro _
              refine ⟨y, l, rfl, ?_⟩
              unfold nodeKey
              cases key with
              | mk ku kt =>
                simp only at huk htr
                rw [huk, htr]
            · intro hc; cases hc
          · rw [if_neg htr] at hunfold
            by_cases htr2 : (nodeAt s y).keyTrailer < key.trailer
            · rw [if_pos htr2] at hunfold
              refine ⟨[], y :: l, rfl, by simp, ?_⟩
              rw [hunfold]
              refine ⟨Or.inl rfl, NextChain.cons prev y l hnx hyt hrest, by rw [hnx], by simp, ?_⟩
              intro _
              exact Or.inr ⟨y, l, rfl, Or.inr ⟨huk, htr2⟩⟩
            · rw [if_neg htr2] at hunfold
              obtain ⟨l1, l2, hsplit, hl1, hpos, hch, hnxt, hfound, hnfound⟩ :=
                ih y f hrest (by simp at hfuel; omega)
              refine ⟨y :: l1, l2, by simp [hsplit], ?_, ?_⟩
              · intro x hx
                rcases List.mem_cons.mp hx with hxy | hxl
                · subst hxy
                  refine Or.inr ⟨huk.symm, ?_⟩
                  show key.trailer < (nodeAt s x).keyTrailer
                  omega
                · exact hl1 x hxl
              · rw [hunfold]
                refine ⟨?_, hch, hnxt, hfound, hnfound⟩
                rcases hpos with hp | hp
                · exact Or.inr (by rw [hp]; simp)
                · exact Or.inr (by simp [hp])
        · rw [if_neg heq] at hunfold
          have hgt : 0 < bytesCompare key.userKey (nodeAt s y).key := by
            rcases bytesCompare_values key.userKey (nodeAt s y).key with h | h | h <;> omega
          obtain ⟨l1, l2, hsplit, hl1, hpos, hch, hnxt, hfound, hnfound⟩ :=
            ih y f hrest (by simp at hfuel; omega)
          refine ⟨y :: l1, l2, by simp [hsplit], ?_, ?_⟩
          · intro x hx
            rcases List.mem_cons.mp hx with hxy | hxl
            · subst hxy
              refine Or.inl ?_
              show bytesCompare (nodeAt s x).key key.userKey < 0
              rw [bytesCompare_swap]
              omega
            · exact hl1 x hxl
          · rw [hunfold]
            refine ⟨?_, hch, hnxt, hfound, hnfound⟩
            rcases hpos with hp | hp
            · exact Or.inr (by rw [hp]; simp)
            · exact Or.inr (by simp [hp])

/-- Hypothesis shape for the node a level search starts from: head, or
a real node reaching above `level` whose key is strictly before the
sought key. -/
def searchStart (s : SkiplistM) (key : InternalKey) (level prev : Nat) : Prop :=
  prev = headId ∨ (3 ≤ prev ∧ prev < s.nodes.length ∧
    level < (nodeAt s prev).height ∧ ikLt (nodeKey s prev) key)

/-- Decomposition of the level list around one `findSpliceForLevel`
call: the part at or before the final `prev` (all strictly before the
key), and the chain hanging off the final `prev`. -/
theorem fsl_main (s : SkiplistM) (key : InternalKey) (inv : Inv s) (level : Nat)
    (hlev : level < maxHeight) (prev : Nat) {lv : List Nat} (hLI : LevelInv s level lv)
    (hprev : searchStart s key level prev) :
    ∃ pre l1 l2, lv = pre ++ l1 ++ l2 ∧
      (∀ x ∈ pre, ikLt (nodeKey s x) key) ∧
      (∀ x ∈ l1, ikLt (nodeKey s x) key) ∧
      ((findSpliceForLevel s key level prev).1 = prev ∨
        (findSpliceForLevel s key level prev).1 ∈ l1) ∧
      NextChain s level (findSpliceForLevel s key level prev).1 l2 ∧
      (findSpliceForLevel s key level prev).2.1
        = getNext s (findSpliceForLevel s key level prev).1 level ∧
      ((findSpliceForLevel s key level prev).2.2 = true →
        ∃ y l2t, l2 = y :: l2t ∧ nodeKey s y = key) ∧
      ((findSpliceForLevel s key level prev).2.2 = false →
        l2 = [] ∨ ∃ y l2t, l2 = y :: l2t ∧ ikLt key (nodeKey s y)) := by
  have hlen := levelInv_length inv.nodes_len hLI
  rcases hprev with hhead | ⟨h3, hl, hh, hik⟩
  · subst hhead
    obtain ⟨l1, l2, hsplit, hl1, hpos, hch, hnxt, hfound, hnfound⟩ :=
      fslGo_spec s key level lv headId (s.nodes.length + 1) hLI.chain (by omega)
    exact ⟨[], l1, l2, by simpa using hsplit, by simp, hl1, hpos, hch, hnxt, hfound, hnfound⟩
  · have hmem : prev ∈ lv := hLI.complete prev h3 hl hh
    obtain ⟨pre, suf, hsplit0, hchsuf⟩ := nextChain_suffix hLI.chain prev hmem
    have hsuflen : suf.length < s.nodes.length + 1 := by
      have hlv : lv.length = pre.length + suf.length + 1 := by
        rw [hsplit0]
        simp only [List.length_append, List.length_cons]
        omega
      omega
    obtain ⟨l1, l2, hsplit, hl1, hpos, hch, hnxt, hfound, hnfound⟩ :=
      fslGo_spec s key level suf prev (s.nodes.length + 1) hchsuf hsuflen
    refine ⟨pre ++ [prev], l1, l2, ?_, ?_, hl1, hpos, hch, hnxt, hfound, hnfound⟩
    · rw [hsplit0, hsplit]
      simp
    · intro x hx
      rcases List.mem_append.mp hx with hxp | hxp
      · have hsorted := hLI.sorted
        rw [hsplit0] at hsorted
        have hclose := (List.pairwise_append.mp hsorted).2.2 x hxp prev (by simp)
        exact ikLt_trans hclose hik
      · rw [List.mem_singleton.mp hxp]
        exact hik

/-- One level of the descent: the recorded splice is good, the key is
either present somewhere or the recorded `next` is past it, the final
`prev` is again a valid search start, and a `found` answer means the
key is present. -/
theorem fsl_step (s : SkiplistM) (key : InternalKey) (inv : Inv s) (level : Nat)
    (hlev : level < maxHeight) (prev : Nat) (hprev : searchStart s key level prev) :
    goodSplice s key level ⟨(findSpliceForLevel s key level prev).1,
      (findSpliceForLevel s key level prev).2.1⟩ ∧
    (keyPresent s key ∨ (findSpliceForLevel s key level prev).2.1 = tailId ∨
      ikLt key (nodeKey s (findSpliceForLevel s key level prev).2.1)) ∧
    searchStart s key level (findSpliceForLevel s key level prev).1 ∧
    ((findSpliceForLevel s key level prev).2.2 = true → keyPresent s key) := by
  obtain ⟨lv, hLI⟩ := inv.levels level hlev
  obtain ⟨pre, l1, l2, hsplit, hpre, hl1, hpos, hch, hnxt, hfound, hnfound⟩ :=
    fsl_main s key inv level hlev prev hLI hprev
  have hl1lv : ∀ x ∈ l1, x ∈ lv := by
    intro x hx
    rw [hsplit]
    simp [hx]
  have hl2lv : ∀ x ∈ l2, x ∈ lv := by
    intro x hx
    rw [hsplit]
    simp [hx]
  have hkeyfound : (findSpliceForLevel s key level prev).2.2 = true → keyPresent s key := by
    intro ht
    obtain ⟨y, l2t, hl2, hykey⟩ := hfound ht
    have hy : y ∈ lv := hl2lv y (by rw [hl2]; simp)
    exact ⟨y, hLI.mem_lo y hy, hLI.mem_hi y hy, by have := hLI.mem_height y hy; omega, hykey⟩
  have hstart : searchStart s key level (findSpliceForLevel s key level prev).1 := by
    rcases hpos with hp | hp
    · rw [hp]; exact hprev
    · have hx := hl1lv _ hp
      exact Or.inr ⟨hLI.mem_lo _ hx, hLI.mem_hi _ hx, hLI.mem_height _ hx, hl1 _ hp⟩
  refine ⟨⟨?_, hnxt.symm, ?_⟩, ?_, hstart, hkeyfound⟩
  · exact hstart
  · cases hch with
    | nil _ hx =>
      rw [hnxt, hx]
      exact Or.inl rfl
    | cons _ y l hy hyt hrest =>
      have hylv : y ∈ lv := hl2lv y (by simp)
      rw [hnxt, hy]
      exact Or.inr ⟨hLI.mem_lo y hylv, hLI.mem_hi y hylv, hLI.mem_height y hylv⟩
  · by_cases hf : (findSpliceForLevel s key level prev).2.2 = true
    · exact Or.inl (hkeyfound hf)
    · rcases hnfound (by simpa using hf) with hemp | ⟨y, l2t, hl2, hik⟩
      · subst hemp
        cases hch with
        | nil _ hx => exact Or.inr (Or.inl (by rw [hnxt, hx]))
      · refine Or.inr (Or.inr ?_)
        rw [hl2] at hch
        cases hch with
        | cons _ y2 l hy hyt hrest =>
          rw [hnxt, hy]
          exact hik

/-- If the level-0 search comes back not-found, the key is nowhere in
the list. -/
theorem fsl_notfound0 (s : SkiplistM) (key : InternalKey) (inv : Inv s) (prev : Nat)
    (hprev : searchStart s key 0 prev)
    (hfalse : (findSpliceForLevel s key 0 prev).2.2 = false) :
    ¬ keyPresent s key := by
  obtain ⟨lv, hLI⟩ := inv.levels 0 (by norm_num [maxHeight])
  obtain ⟨pre, l1, l2, hsplit, hpre, hl1, hpos, hch, hnxt, hfound, hnfound⟩ :=
    fsl_main s key inv 0 (by norm_num [maxHeight]) prev hLI hprev
  rintro ⟨x, hx3, hxl, hxh, hxkey⟩
  have hxmem : x ∈ lv := hLI.complete x hx3 hxl hxh
  rw [hsplit] at hxmem
  rcases List.mem_append.mp hxmem with hx12 | hxl2
  · rcases List.mem_append.mp hx12 with hxp | hx1
    · exact ikLt_irrefl key (by have := hpre x hxp; rwa [hxkey] at this)
    · exact ikLt_irrefl key (by have := hl1 x hx1; rwa [hxkey] at this)
  · rcases hnfound hfalse with hemp | ⟨y, l2t, hl2, hik⟩
    · rw [hemp] at hxl2; cases hxl2
    · have hsort2 : List.Pairwise (fun a b => ikLt (nodeKey s a) (nodeKey s b)) l2 := by
        refine hLI.sorted.sublist ?_
        rw [hsplit]
        exact (List.suffix_append (pre ++ l1) l2).sublist
      rw [hl2] at hxl2 hsort2
      rcases List.mem_cons.mp hxl2 with hxy | hxrest
      · subst hxy
        rw [hxkey] at hik
        exact ikLt_irrefl key hik
      · have hyx : ikLt (nodeKey s y) (nodeKey s x) :=
          (List.pairwise_cons.mp hsort2).1 x hxrest
        have : ikLt key (nodeKey s x) := ikLt_trans hik hyx
        rw [hxkey] at this
        exact ikLt_irrefl key this

theorem searchStart_mono {s : SkiplistM} {key : InternalKey} {j l prev : Nat}
    (hj : j ≤ l) (h : searchStart s key l prev) : searchStart s key j prev := by
  rcases h with h | ⟨h3, hl, hh, hik⟩
  · exact Or.inl h
  · exact Or.inr ⟨h3, hl, by omega, hik⟩

theorem getD_set_self {α : Type} {l : List α} {i : Nat} (h : i < l.length) (a d : α) :
    (l.set i a).getD i d = a := by
  rw [List.getD_eq_getElem?_getD, List.getElem?_set_self h]
  rfl

theorem getD_set_ne {α : Type} {l : List α} {i j : Nat} (h : i ≠ j) (a d : α) :
    (l.set i a).getD j d = l.getD j d := by
  rw [List.getD_eq_getElem?_getD, List.getElem?_set_ne h, List.getD_eq_getElem?_getD]

/-! ## The descent (`findSplice`'s level loop) -/

theorem findSpliceDown_spec (s : SkiplistM) (key : InternalKey) (inv : Inv s) :
    ∀ (level : Nat) (prev : Nat) (ins : InserterM),
    level ≤ maxHeight →
    searchStart s key (level - 1) prev →
    ins.spl.length = maxHeight →
    (findSpliceDown s key level prev ins).2.height = ins.height ∧
    (findSpliceDown s key level prev ins).2.spl.length = maxHeight ∧
    (∀ j, level ≤ j →
      (findSpliceDown s key level prev ins).2.spl.getD j ⟨0, 0⟩ = ins.spl.getD j ⟨0, 0⟩) ∧
    (∀ j, j < level →
      goodSplice s key j ((findSpliceDown s key level prev ins).2.spl.getD j ⟨0, 0⟩) ∧
      (keyPresent s key ∨
        ((findSpliceDown s key level prev ins).2.spl.getD j ⟨0, 0⟩).next = tailId ∨
        ikLt key (nodeKey s ((findSpliceDown s key level prev ins).2.spl.getD j ⟨0, 0⟩).next))) ∧
    ((findSpliceDown s key level prev ins).1 = true → keyPresent s key) ∧
    (1 ≤ level → (findSpliceDown s key level prev ins).1 = false → ¬ keyPresent s key) := by
  intro level
  induction level with
  | zero =>
    intro prev ins hle hprev hins
    refine ⟨rfl, hins, fun j _ => rfl, fun j hj => absurd hj (by omega), ?_, ?_⟩
    · intro hc
      simp [findSpliceDown] at hc
    · intro hc
      omega
  | succ l ih =>
    intro prev ins hle hprev hins
    have hstep := fsl_step s key inv l (by omega) prev (by simpa using hprev)
    cases l with
    | zero =>
      set r := findSpliceForLevel s key 0 prev with hr
      have hrw : findSpliceDown s key 1 prev ins =
          (r.2.2, { ins with spl := ins.spl.set 0 ⟨r.1, r.2.1⟩ }) := rfl
      rw [hrw]
      refine ⟨rfl, by simpa using hins, ?_, ?_, ?_, ?_⟩
      · intro j hj
        exact getD_set_ne (by omega) _ _
      · intro j hj
        have hj0 : j = 0 := by omega
        subst hj0
        rw [getD_set_self (by omega) _ _]
        exact ⟨hstep.1, hstep.2.1⟩
      · intro ht
        exact hstep.2.2.2 ht
      · intro _ hf
        exact fsl_notfound0 s key inv prev (by simpa using hprev) hf
    | succ m =>
      set r := findSpliceForLevel s key (m + 1) prev with hr
      set ins1 : InserterM :=
        { ins with spl := ins.spl.set (m + 1) ⟨r.1, r.2.1⟩ } with hins1
      have hrw : findSpliceDown s key (m + 2) prev ins =
          findSpliceDown s key (m + 1) r.1 ins1 := rfl
      have hins1len : ins1.spl.length = maxHeight := by
        rw [hins1]
        simpa using hins
      have hrec := ih r.1 ins1 (by omega)
        (searchStart_mono (by omega) hstep.2.2.1) hins1len
      rw [hrw]
      refine ⟨hrec.1, hrec.2.1, ?_, ?_, hrec.2.2.2.2.1, fun _ => hrec.2.2.2.2.2 (by omega)⟩
      · intro j hj
        rw [hrec.2.2.1 j (by omega)]
        show ins1.spl.getD j ⟨0, 0⟩ = ins.spl.getD j ⟨0, 0⟩
        rw [hins1]
        exact getD_set_ne (by omega) _ _
      · intro j hj
        by_cases hjm : j < m + 1
        · exact hrec.2.2.2.1 j hjm
        · have hjeq : j = m + 1 := by omega
          subst hjeq
          have huntouched := hrec.2.2.1 (m + 1) (by omega)
          rw [huntouched]
          have hgot : ins1.spl.getD (m + 1) ⟨0, 0⟩ = ⟨r.1, r.2.1⟩ := by
            rw [hins1]
            exact getD_set_self (by omega) _ _
          rw [hgot]
          exact ⟨hstep.1, hstep.2.1⟩

/-- `findSplice` with the fresh zeroed inserter of `Skiplist.Add`:
every level below the list height gets a good splice, levels at or
above it keep the zero splice, and `found` says exactly whether the
key is present. -/
theorem findSplice_fresh_spec (s : SkiplistM) (key : InternalKey) (inv : Inv s) :
    (findSplice s key freshInserter).2.spl.length = maxHeight ∧
    (∀ j, s.height ≤ j → (findSplice s key freshInserter).2.spl.getD j ⟨0, 0⟩ = ⟨0, 0⟩) ∧
    (∀ j, j < s.height →
      goodSplice s key j ((findSplice s key freshInserter).2.spl.getD j ⟨0, 0⟩) ∧
      (keyPresent s key ∨
        ((findSplice s key freshInserter).2.spl.getD j ⟨0, 0⟩).next = tailId ∨
        ikLt key (nodeKey s ((findSplice s key freshInserter).2.spl.getD j ⟨0, 0⟩).next))) ∧
    ((findSplice s key freshInserter).1 = true ↔ keyPresent s key) := by
  have hbr : findSplice s key freshInserter =
      findSpliceDown s key s.height headId { freshInserter with height := s.height } := by
    unfold findSplice
    rw [if_pos]
    show freshInserter.height < s.height
    have := inv.height_pos
    show 0 < s.height
    omega
  have hlen : ({ freshInserter with height := s.height } : InserterM).spl.length = maxHeight := by
    show freshInserter.spl.length = maxHeight
    simp [freshInserter]
  have hspec := findSpliceDown_spec s key inv s.height headId
    { freshInserter with height := s.height } inv.height_le (Or.inl rfl) hlen
  rw [hbr]
  refine ⟨hspec.2.1, ?_, hspec.2.2.2.1, ?_⟩
  · intro j hj
    rw [hspec.2.2.1 j hj]
    show (List.replicate maxHeight (⟨0, 0⟩ : SpliceM)).getD j ⟨0, 0⟩ = ⟨0, 0⟩
    rw [List.getD_eq_getElem?_getD, List.getElem?_replicate]
    by_cases hjm : j < maxHeight
    · rw [if_pos hjm]; rfl
    · rw [if_neg hjm]; rfl
  · constructor
    · exact hspec.2.2.2.2.1
    · intro hp
      by_cases hf : (findSpliceDown s key s.height headId
          { freshInserter with height := s.height }).1 = true
      · exact hf
      · exact absurd hp (hspec.2.2.2.2.2 inv.height_pos (by simpa using hf))

/-! ## Linking one level -/

/-- Proof abbreviation: the state of `linkLevel` after
`nd.tower[i].init(prev, next)`. -/
def linkS1 (t : SkiplistM) (ndId level p n : Nat) : SkiplistM :=
  storePrev (storeNext t ndId level n) ndId level p

/-- Proof abbreviation: the state of `linkLevel` after the help-CAS on
`next.prev[i]`. -/
def linkS2 (t : SkiplistM) (ndId level p n : Nat) : SkiplistM :=
  if getPrev (linkS1 t ndId level p n) n level ≠ p then
    (if getNext (linkS1 t ndId level p n) p level = n then
      (casPrev (linkS1 t ndId level p n) n level
        (getPrev (linkS1 t ndId level p n) n level) p).2
    else linkS1 t ndId level p n)
  else linkS1 t ndId level p n

theorem linkLevel_unfold (key : InternalKey) (ndId level fuel : Nat) (t : SkiplistM)
    (p n : Nat) :
    linkLevel key ndId level (fuel + 1) t p n =
      (if (casNext (linkS2 t ndId level p n) p level n ndId).1 then
        (AddOut.ok,
          (casPrev (casNext (linkS2 t ndId level p n) p level n ndId).2 n level p ndId).2,
          false)
      else
        let c := casNext (linkS2 t ndId level p n) p level n ndId
        let r := findSpliceForLevel c.2 key level p
        if r.2.2 then
          if level ≠ 0 then (AddOut.bug, c.2, true) else (AddOut.recordExists, c.2, true)
        else
          let out := linkLevel key ndId level fuel c.2 r.1 r.2.1
          (out.1, out.2.1, true)) := rfl

/-- In a sequential run with a valid splice, the inner loop of
`addInternal` links the node between `p` and `n` on its first
iteration: the CAS succeeds, no retry happens, and the only `next`
links that change are `p.next[level] := nd` and `nd.next[level] := n`. -/
theorem linkLevel_ok (key : InternalKey) (ndId level fuel : Nat) (t : SkiplistM) (p n : Nat)
    (hpn : getNext t p level = n)
    (hpnd : p ≠ ndId) (hnnd : n ≠ ndId)
    (hplen : p < t.nodes.length) (hndlen : ndId < t.nodes.length)
    (hptower : level < (nodeAt t p).next.length)
    (hndtower : level < (nodeAt t ndId).next.length) :
    ∃ t', linkLevel key ndId level (fuel + 1) t p n = (AddOut.ok, t', false) ∧
      sameShape t t' ∧
      (∀ x j, getNext t' x j =
        if x = p ∧ j = level then ndId
        else if x = ndId ∧ j = level then n
        else getNext t x j) := by
  have hg1 : ∀ x j, getNext (linkS1 t ndId level p n) x j =
      if x = ndId ∧ j = level then n else getNext t x j := by
    intro x j
    unfold linkS1
    rw [getNext_storePrev, getNext_storeNext t ndId level n hndlen hndtower]
  have hsh1 : sameShape t (linkS1 t ndId level p n) :=
    sameShape_trans (storeNext_sameShape t ndId level n)
      (storePrev_sameShape (storeNext t ndId level n) ndId level p)
  have hg2 : ∀ x j, getNext (linkS2 t ndId level p n) x j =
      getNext (linkS1 t ndId level p n) x j := by
    intro x j
    unfold linkS2
    split
    · split
      · rw [getNext_casPrev]
      · rfl
    · rfl
  have hsh2 : sameShape t (linkS2 t ndId level p n) := by
    unfold linkS2
    split
    · split
      · exact sameShape_trans hsh1 (casPrev_sameShape _ n level _ p)
      · exact hsh1
    · exact hsh1
  have hcond : getNext (linkS2 t ndId level p n) p level = n := by
    rw [hg2, hg1]
    rw [if_neg (fun hc => hpnd hc.1)]
    exact hpn
  have hcas : casNext (linkS2 t ndId level p n) p level n ndId =
      (true, storeNext (linkS2 t ndId level p n) p level ndId) := by
    unfold casNext
    rw [if_pos hcond]
  have hplen2 : p < (linkS2 t ndId level p n).nodes.length := by
    rw [hsh2.1]; exact hplen
  have hptower2 : level < (nodeAt (linkS2 t ndId level p n) p).next.length := by
    rw [(hsh2.2.2 p).2.2.2.2.1]; exact hptower
  have hg3 : ∀ x j, getNext (storeNext (linkS2 t ndId level p n) p level ndId) x j =
      if x = p ∧ j = level then ndId else getNext (linkS2 t ndId level p n) x j :=
    getNext_storeNext (linkS2 t ndId level p n) p level ndId hplen2 hptower2
  refine ⟨(casPrev (storeNext (linkS2 t ndId level p n) p level ndId) n level p ndId).2,
    ?_, ?_, ?_⟩
  · rw [linkLevel_unfold, hcas]
    rw [if_pos rfl]
  · refine sameShape_trans hsh2 ?_
    exact sameShape_trans (storeNext_sameShape _ p level ndId) (casPrev_sameShape _ n level p ndId)
  · intro x j
    rw [getNext_casPrev, hg3]
    by_cases hc1 : x = p ∧ j = level
    · rw [if_pos hc1, if_pos hc1]
    · rw [if_neg hc1, if_neg hc1, hg2, hg1]

/-! ## Inserting a node into one level's chain -/

/-- After the level-`level` link update, the chain hanging off `p`
gains `ndId` right at its front. -/
theorem nextChain_insert_at {t t' : SkiplistM} {level p n ndId : Nat}
    (hupd : ∀ x j, getNext t' x j = if x = p ∧ j = level then ndId
        else if x = ndId ∧ j = level then n else getNext t x j)
    (hpn : getNext t p level = n) (hndt : ndId ≠ tailId) (hpnd : p ≠ ndId)
    {l : List Nat} (hch : NextChain t level p l)
    (hp_not : p ∉ l) (hnd_not : ndId ∉ l) :
    NextChain t' level p (ndId :: l) := by
  refine NextChain.cons p ndId l (by rw [hupd]; simp) hndt ?_
  have hndn : getNext t' ndId level = n := by
    rw [hupd]
    rw [if_neg (fun hc => hpnd hc.1.symm), if_pos ⟨rfl, rfl⟩]
  cases hch with
  | nil _ hx =>
    exact NextChain.nil ndId (by rw [hndn, ← hpn, hx])
  | cons _ y rest hy hyt hrest =>
    have hyn : y = n := by rw [← hy, hpn]
    refine NextChain.cons ndId y rest (by rw [hndn, hyn]) hyt ?_
    refine nextChain_congr hrest ?_ ?_
    · have h1 : ¬ (y = p ∧ level = level) := by
        intro hc
        exact hp_not (by rw [← hc.1]; exact List.mem_cons_self y rest)
      have h2 : ¬ (y = ndId ∧ level = level) := by
        intro hc
        exact hnd_not (by rw [← hc.1]; exact List.mem_cons_self y rest)
      rw [hupd, if_neg h1, if_neg h2]
    · intro z hz
      have h1 : ¬ (z = p ∧ level = level) := by
        intro hc
        exact hp_not (by rw [← hc.1]; exact List.mem_cons_of_mem y hz)
      have h2 : ¬ (z = ndId ∧ level = level) := by
        intro hc
        exact hnd_not (by rw [← hc.1]; exact List.mem_cons_of_mem y hz)
      rw [hupd, if_neg h1, if_neg h2]

/-- Replacing the suffix of a chain after an untouched prefix. -/
theorem nextChain_replace_suffix {t t' : SkiplistM} {level p ndId n : Nat}
    (hupd : ∀ x j, getNext t' x j = if x = p ∧ j = level then ndId
        else if x = ndId ∧ j = level then n else getNext t x j)
    {suf newsuf : List Nat} (hnew : NextChain t' level p newsuf) (hpt : p ≠ tailId) :
    ∀ (pre : List Nat) (start : Nat),
    NextChain t level start (pre ++ p :: suf) →
    p ∉ pre → ndId ∉ pre → start ≠ p → start ≠ ndId →
    NextChain t' level start (pre ++ p :: newsuf) := by
  intro pre
  induction pre with
  | nil =>
    intro start hch hpp hndp hsp hsnd
    cases hch with
    | cons _ _ _ hy hyt hrest =>
      refine NextChain.cons start p newsuf ?_ hyt hnew
      have h1 : ¬ (start = p ∧ level = level) := fun hc => hsp hc.1
      have h2 : ¬ (start = ndId ∧ level = level) := fun hc => hsnd hc.1
      rw [hupd, if_neg h1, if_neg h2]
      exact hy
  | cons a pre' ih =>
    intro start hch hpp hndp hsp hsnd
    cases hch with
    | cons _ _ _ hy hyt hrest =>
      refine NextChain.cons start a (pre' ++ p :: newsuf) ?_ hyt ?_
      · have h1 : ¬ (start = p ∧ level = level) := fun hc => hsp hc.1
        have h2 : ¬ (start = ndId ∧ level = level) := fun hc => hsnd hc.1
        rw [hupd, if_neg h1, if_neg h2]
        exact hy
      · exact ih a hrest (fun hc => hpp (List.mem_cons_of_mem a hc))
          (fun hc => hndp (List.mem_cons_of_mem a hc))
          (fun hc => hpp (by rw [← hc]; exact List.mem_cons_self a pre'))
          (fun hc => hndp (by rw [← hc]; exact List.mem_cons_self a pre'))

/-- The full per-level insertion: if the splice `(p, n)` is valid for
`key` and `ndId` carries `key`, the level-`level` chain of the updated
state is the old chain with `ndId` inserted at its sorted position. -/
theorem chain_insert_level {t t' : SkiplistM} {level : Nat} {p n ndId : Nat}
    {key : InternalKey} {l : List Nat}
    (hch : NextChain t level headId l)
    (hsort : List.Pairwise (fun a b => ikLt (nodeKey t a) (nodeKey t b)) l)
    (hupd : ∀ x j, getNext t' x j = if x = p ∧ j = level then ndId
        else if x = ndId ∧ j = level then n else getNext t x j)
    (hpn : getNext t p level = n)
    (hpgood : p = headId ∨ (p ∈ l ∧ ikLt (nodeKey t p) key))
    (hnbound : n = tailId ∨ ikLt key (nodeKey t n))
    (hkeys : ∀ x, nodeKey t' x = nodeKey t x)
    (hndkey : nodeKey t ndId = key)
    (hnotin : ndId ∉ l) (hndh : ndId ≠ headId) (hndt : ndId ≠ tailId)
    (hheadmem : headId ∉ l) (htailmem : tailId ∉ l) :
    ∃ l1 l2, l = l1 ++ l2 ∧
      NextChain t' level headId (l1 ++ ndId :: l2) ∧
      List.Pairwise (fun a b => ikLt (nodeKey t' a) (nodeKey t' b)) (l1 ++ ndId :: l2) ∧
      (∀ x ∈ l1, ikLt (nodeKey t x) key) := by
  have hnd : l.Nodup := by
    refine hsort.imp ?_
    intro a b hab hc
    subst hc
    exact ikLt_irrefl _ hab
  have hl2_gt : ∀ (l2 : List Nat), NextChain t level p l2 → l2.Sublist l →
      ∀ x ∈ l2, ikLt key (nodeKey t x) := by
    intro l2 hch2 hsub x hx
    cases hch2 with
    | nil _ _ => cases hx
    | cons _ y rest hy hyt hrest =>
      have hyn : y = n := by rw [← hy, hpn]
      have hkeyn : ikLt key (nodeKey t y) := by
        rcases hnbound with hb | hb
        · exact absurd (hyn.trans hb) hyt
        · rw [hyn]; exact hb
      rcases List.mem_cons.mp hx with hxy | hxr
      · subst hxy; exact hkeyn
      · have hsort2 : List.Pairwise (fun a b => ikLt (nodeKey t a) (nodeKey t b)) (y :: rest) :=
          hsort.sublist hsub
        exact ikLt_trans hkeyn ((List.pairwise_cons.mp hsort2).1 x hxr)
  have hmk : ∀ (l1 l2 : List Nat), l = l1 ++ l2 →
      (∀ x ∈ l1, ikLt (nodeKey t x) key) →
      (∀ x ∈ l2, ikLt key (nodeKey t x)) →
      List.Pairwise (fun a b => ikLt (nodeKey t' a) (nodeKey t' b)) (l1 ++ ndId :: l2) := by
    intro l1 l2 hsplit hlt hgt
    have hres : List.Pairwise (fun a b => ikLt (nodeKey t a) (nodeKey t b)) (l1 ++ ndId :: l2) := by
      rw [List.pairwise_append]
      rw [hsplit, List.pairwise_append] at hsort
      refine ⟨hsort.1, ?_, ?_⟩
      · rw [List.pairwise_cons]
        refine ⟨?_, hsort.2.1⟩
        intro x hx
        rw [hndkey]
        exact hgt x hx
      · intro a ha b hb
        rcases List.mem_cons.mp hb with hbn | hb2
        · subst hbn
          rw [hndkey]
          exact hlt a ha
        · exact hsort.2.2 a ha b hb2
    refine hres.imp ?_
    intro a b hab
    rw [hkeys a, hkeys b]
    exact hab
  rcases hpgood with hphead | ⟨hpmem, hpkey⟩
  · subst hphead
    refine ⟨[], l, rfl, ?_, ?_, by simp⟩
    · exact nextChain_insert_at hupd hpn hndt (fun hc => hndh hc.symm) hch hheadmem hnotin
    · refine hmk [] l rfl (by simp) ?_
      exact hl2_gt l (by simpa [hpn] using hch) (List.Sublist.refl l)
  · obtain ⟨pre, suf, hsplit, hchsuf⟩ := nextChain_suffix hch p hpmem
    have hndsplit := hnd
    rw [hsplit] at hndsplit
    have hdisj := List.nodup_append.mp hndsplit
    have hpnsuf : p ∉ suf := (List.nodup_cons.mp hdisj.2.1).1
    have hndsuf : ndId ∉ suf := fun hc =>
      hnotin (by rw [hsplit]; exact List.mem_append_right _ (List.mem_cons_of_mem p hc))
    have hndpre : ndId ∉ pre := fun hc => hnotin (by rw [hsplit]; exact List.mem_append_left _ hc)
    have hppre : p ∉ pre := fun hc => hdisj.2.2 hc (List.mem_cons_self p suf)
    have hpt : p ≠ tailId := fun hc => htailmem (hc ▸ hpmem)
    have hpnd2 : p ≠ ndId := fun hc => hnotin (hc ▸ hpmem)
    have hnew : NextChain t' level p (ndId :: suf) :=
      nextChain_insert_at hupd hpn hndt hpnd2 hchsuf hpnsuf hndsuf
    have hheadp : headId ≠ p := fun hc => hheadmem (hc ▸ hpmem)
    have hheadnd : headId ≠ ndId := fun hc => hndh hc.symm
    have hgraft : NextChain t' level headId (pre ++ p :: (ndId :: suf)) :=
      nextChain_replace_suffix hupd hnew hpt pre headId (hsplit ▸ hch)
        hppre hndpre hheadp hheadnd
    have hl1lt : ∀ x ∈ pre ++ [p], ikLt (nodeKey t x) key := by
      intro x hx
      rcases List.mem_append.mp hx with hxp | hxp
      · rw [hsplit, List.pairwise_append] at hsort
        exact ikLt_trans (hsort.2.2 x hxp p (List.mem_cons_self p suf)) hpkey
      · rw [List.mem_singleton.mp hxp]
        exact hpkey
    refine ⟨pre ++ [p], suf, by rw [hsplit]; simp, by simpa using hgraft, ?_, hl1lt⟩
    have hsufsub : suf.Sublist l := by
      rw [hsplit]
      exact ((List.sublist_cons_self p suf).trans (List.sublist_append_right pre (p :: suf)))
    have := hmk (pre ++ [p]) suf (by rw [hsplit]; simp) hl1lt
      (hl2_gt suf hchsuf hsufsub)
    simpa using this

/-! ## The level loop of `addInternal` -/

/-- The effective `(prev, next)` pair `addInternal` uses at level `j`:
the cached splice, or `(head, tail)` when the splice is nil (the level
was above the searched height). -/
def pnAt (ins : InserterM) (j : Nat) : Nat × Nat :=
  if (ins.spl.getD j ⟨0, 0⟩).prev = 0 then (headId, tailId)
  else ((ins.spl.getD j ⟨0, 0⟩).prev, (ins.spl.getD j ⟨0, 0⟩).next)

theorem nodeAt_append_lt (s0 : SkiplistM) (nd : NodeM) (hgt : Nat) (x : Nat)
    (hx : x < s0.nodes.length) :
    nodeAt { nodes := s0.nodes ++ [nd], height := hgt } x = nodeAt s0 x := by
  unfold nodeAt
  show (s0.nodes ++ [nd]).getD x nullNode = s0.nodes.getD x nullNode
  rw [List.getD_eq_getElem?_getD, List.getD_eq_getElem?_getD, List.getElem?_append,
    if_pos hx]

theorem nodeAt_append_self (s0 : SkiplistM) (nd : NodeM) (hgt : Nat) :
    nodeAt { nodes := s0.nodes ++ [nd], height := hgt } s0.nodes.length = nd := by
  unfold nodeAt
  show (s0.nodes ++ [nd]).getD s0.nodes.length nullNode = nd
  rw [List.getD_eq_getElem?_getD, List.getElem?_concat_length]
  rfl

theorem linkLevels_unfold (key : InternalKey) (ndId : Nat) (ins : InserterM)
    (i count : Nat) (t : SkiplistM) (inval : Bool) :
    linkLevels key ndId ins i (count + 1) t inval =
      (if (ins.spl.getD i ⟨0, 0⟩).prev = 0 then
        if (ins.spl.getD i ⟨0, 0⟩).next ≠ 0 then (AddOut.bug, t, inval)
        else
          let r := linkLevel key ndId i (t.nodes.length + 1) t headId tailId
          match r.1 with
          | AddOut.ok => linkLevels key ndId ins (i + 1) count r.2.1 (inval || r.2.2)
          | e => (e, r.2.1, inval || r.2.2)
      else
        let r := linkLevel key ndId i (t.nodes.length + 1) t
          (ins.spl.getD i ⟨0, 0⟩).prev (ins.spl.getD i ⟨0, 0⟩).next
        match r.1 with
        | AddOut.ok => linkLevels key ndId ins (i + 1) count r.2.1 (inval || r.2.2)
        | e => (e, r.2.1, inval || r.2.2)) := rfl

/-- The level loop of `addInternal`, sequentially: starting from the
freshly allocated (still unlinked) node, each level links on its first
CAS attempt; afterwards the node is a member of every chain up to its
height, all chains stay sorted, and nothing else changed. -/
theorem linkLevels_loop (s0 s1 : SkiplistM) (key : InternalKey) (h len0 ndId : Nat)
    (ins : InserterM)
    (hnd : ndId = len0) (hlen0 : 3 ≤ len0) (hhm : h ≤ maxHeight)
    (hs1len : s1.nodes.length = len0 + 1)
    (htow : ∀ x, x < len0 + 1 → (nodeAt s1 x).next.length = maxHeight ∧
      (nodeAt s1 x).prev.length = maxHeight)
    (hk01 : ∀ x, x < len0 → nodeKey s1 x = nodeKey s0 x)
    (hkNd : nodeKey s1 ndId = key)
    (hfresh : ∀ j, j < h → (ins.spl.getD j ⟨0, 0⟩).prev = 0 →
      (ins.spl.getD j ⟨0, 0⟩).next = 0)
    (hsp : ∀ j, j < h →
      (pnAt ins j).1 = headId ∨ (3 ≤ (pnAt ins j).1 ∧ (pnAt ins j).1 < len0 ∧
        j < (nodeAt s0 (pnAt ins j).1).height ∧ ikLt (nodeKey s0 (pnAt ins j).1) key))
    (hsn : ∀ j, j < h →
      (pnAt ins j).2 = tailId ∨ (3 ≤ (pnAt ins j).2 ∧ (pnAt ins j).2 < len0 ∧
        ikLt key (nodeKey s0 (pnAt ins j).2))) :
    ∀ (count i : Nat) (t : SkiplistM) (inval : Bool),
    i + count = h →
    sameShape s1 t →
    (∀ j, j < maxHeight → ∃ l, NextChain t j headId l ∧
      List.Pairwise (fun a b => ikLt (nodeKey t a) (nodeKey t b)) l ∧
      (∀ x, x ∈ l ↔ ((3 ≤ x ∧ x < len0 ∧ j < (nodeAt s0 x).height) ∨ (x = ndId ∧ j < i)))) →
    (∀ j, i ≤ j → j < h → getNext t (pnAt ins j).1 j = (pnAt ins j).2) →
    ∃ t', linkLevels key ndId ins i count t inval = (AddOut.ok, t', inval) ∧
      sameShape s1 t' ∧
      (∀ j, j < maxHeight → ∃ l, NextChain t' j headId l ∧
        List.Pairwise (fun a b => ikLt (nodeKey t' a) (nodeKey t' b)) l ∧
        (∀ x, x ∈ l ↔ ((3 ≤ x ∧ x < len0 ∧ j < (nodeAt s0 x).height) ∨
          (x = ndId ∧ j < h)))) := by
  intro count
  induction count with
  | zero =>
    intro i t inval hih hshape hb hc
    have hieq : i = h := by omega
    subst hieq
    exact ⟨t, rfl, hshape, hb⟩
  | succ count ih =>
    intro i t inval hih hshape hb hc
    have hilt : i < h := by omega
    have him : i < maxHeight := by omega
    -- facts about the effective pair at level i
    have hpn := hc i (le_refl i) hilt
    have hp1 := hsp i hilt
    have hn1 := hsn i hilt
    set p := (pnAt ins i).1 with hpdef
    set n := (pnAt ins i).2 with hndef
    have hpnd : p ≠ ndId := by
      rcases hp1 with hh | hh
      · rw [hh]; unfold headId; omega
      · omega
    have hnnd : n ≠ ndId := by
      rcases hn1 with hh | hh
      · rw [hh]; unfold tailId; omega
      · omega
    have hplt : p < len0 + 1 := by
      rcases hp1 with hh | hh
      · rw [hh]; unfold headId; omega
      · omega
    have hnlen : ndId < len0 + 1 := by omega
    have htlen : t.nodes.length = len0 + 1 := by rw [hshape.1, hs1len]
    have hplen : p < t.nodes.length := by omega
    have hndlen : ndId < t.nodes.length := by omega
    have hptower : i < (nodeAt t p).next.length := by
      rw [(hshape.2.2 p).2.2.2.2.1, (htow p hplt).1]
      omega
    have hndtower : i < (nodeAt t ndId).next.length := by
      rw [(hshape.2.2 ndId).2.2.2.2.1, (htow ndId hnlen).1]
      omega
    obtain ⟨f, hfeq⟩ : ∃ f, t.nodes.length + 1 = f + 1 := ⟨t.nodes.length, rfl⟩
    obtain ⟨t1, hrun, hshape1, hupd⟩ :=
      linkLevel_ok key ndId i t.nodes.length t p n hpn hpnd hnnd hplen hndlen hptower hndtower
    -- keys in t agree with s0 below len0 and give key at ndId
    have hkt : ∀ x, x < len0 → nodeKey t x = nodeKey s0 x := by
      intro x hx
      rw [sameShape_nodeKey hshape x]
      exact hk01 x hx
    have hktnd : nodeKey t ndId = key := by
      rw [sameShape_nodeKey hshape ndId]
      exact hkNd
    -- the new chain facts for t1
    have hbnew : ∀ j, j < maxHeight → ∃ l, NextChain t1 j headId l ∧
        List.Pairwise (fun a b => ikLt (nodeKey t1 a) (nodeKey t1 b)) l ∧
        (∀ x, x ∈ l ↔ ((3 ≤ x ∧ x < len0 ∧ j < (nodeAt s0 x).height) ∨
          (x = ndId ∧ j < i + 1))) := by
      intro j hj
      obtain ⟨l, hch, hsort, hmem⟩ := hb j hj
      by_cases hji : j = i
      · subst hji
        have hnotin : ndId ∉ l := by
          intro hc2
          rcases (hmem ndId).mp hc2 with hcc | hcc
          · omega
          · omega
        have hheadmem : headId ∉ l := by
          intro hc2
          rcases (hmem headId).mp hc2 with hcc | hcc
          · unfold headId at hcc; omega
          · unfold headId at hcc
            omega
        have htailmem : tailId ∉ l := by
          intro hc2
          rcases (hmem tailId).mp hc2 with hcc | hcc
          · unfold tailId at hcc; omega
          · unfold tailId at hcc
            omega
        have hpg : p = headId ∨ (p ∈ l ∧ ikLt (nodeKey t p) key) := by
          rcases hp1 with hh | hh
          · exact Or.inl hh
          · refine Or.inr ⟨(hmem p).mpr (Or.inl ⟨hh.1, hh.2.1, hh.2.2.1⟩), ?_⟩
            rw [hkt p hh.2.1]
            exact hh.2.2.2
        have hnb : n = tailId ∨ ikLt key (nodeKey t n) := by
          rcases hn1 with hh | hh
          · exact Or.inl hh
          · refine Or.inr ?_
            rw [hkt n hh.2.1]
            exact hh.2.2
        have hndh : ndId ≠ headId := by unfold headId; omega
        have hndt : ndId ≠ tailId := by unfold tailId; omega
        obtain ⟨l1, l2, hsplit, hchnew, hsortnew, hlt1⟩ :=
          chain_insert_level hch hsort (fun x j2 => hupd x j2) hpn hpg hnb
            (fun x => sameShape_nodeKey hshape1 x) hktnd hnotin hndh hndt hheadmem htailmem
        refine ⟨l1 ++ ndId :: l2, hchnew, hsortnew, ?_⟩
        intro x
        constructor
        · intro hx
          rcases List.mem_append.mp hx with hx1 | hx2
          · have : x ∈ l := by rw [hsplit]; exact List.mem_append_left l2 hx1
            rcases (hmem x).mp this with hcc | hcc
            · exact Or.inl hcc
            · omega
          · rcases List.mem_cons.mp hx2 with hxnd | hx2
            · exact Or.inr ⟨hxnd, by omega⟩
            · have : x ∈ l := by rw [hsplit]; exact List.mem_append_right l1 hx2
              rcases (hmem x).mp this with hcc | hcc
              · exact Or.inl hcc
              · omega
        · intro hx
          rcases hx with hcc | hcc
          · have : x ∈ l := (hmem x).mpr (Or.inl hcc)
            rw [hsplit] at this
            rcases List.mem_append.mp this with hx1 | hx2
            · exact List.mem_append_left _ hx1
            · exact List.mem_append_right _ (List.mem_cons_of_mem ndId hx2)
          · rw [hcc.1]
            exact List.mem_append_right _ (List.mem_cons_self ndId l2)
      · -- level j untouched by the level-i link
        have hsame : ∀ y, getNext t1 y j = getNext t y j := by
          intro y
          rw [hupd]
          rw [if_neg (fun hc2 => hji hc2.2), if_neg (fun hc2 => hji hc2.2)]
        refine ⟨l, nextChain_congr hch (hsame headId) (fun y _ => hsame y), ?_, ?_⟩
        · refine hsort.imp ?_
          intro a b hab
          rw [sameShape_nodeKey hshape1 a, sameShape_nodeKey hshape1 b]
          exact hab
        · intro x
          rw [hmem x]
          constructor
          · intro hx
            rcases hx with hcc | hcc
            · exact Or.inl hcc
            · exact Or.inr ⟨hcc.1, by omega⟩
          · intro hx
            rcases hx with hcc | hcc
            · exact Or.inl hcc
            · refine Or.inr ⟨hcc.1, ?_⟩
              rcases Nat.lt_succ_iff_lt_or_eq.mp hcc.2 with hlt | heq
              · exact hlt
              · exact absurd heq hji
    -- splice stability for the remaining levels
    have hcnew : ∀ j, i + 1 ≤ j → j < h → getNext t1 (pnAt ins j).1 j = (pnAt ins j).2 := by
      intro j hj1 hj2
      rw [hupd]
      rw [if_neg (fun hc2 => by omega : ¬ ((pnAt ins j).1 = p ∧ j = i))]
      rw [if_neg (fun hc2 => by omega : ¬ ((pnAt ins j).1 = ndId ∧ j = i))]
      exact hc j (by omega) hj2
    have hrec := ih (i + 1) t1 (inval || false) (by omega)
      (sameShape_trans hshape hshape1) hbnew hcnew
    obtain ⟨t', hrun2, hshape2, hb2⟩ := hrec
    refine ⟨t', ?_, hshape2, hb2⟩
    rw [linkLevels_unfold]
    by_cases hz : (ins.spl.getD i ⟨0, 0⟩).prev = 0
    · rw [if_pos hz]
      have hz2 : (ins.spl.getD i ⟨0, 0⟩).next = 0 := hfresh i hilt hz
      rw [if_neg (by simpa using hz2)]
      have hpneq : p = headId ∧ n = tailId := by
        rw [hpdef, hndef]
        unfold pnAt
        rw [if_pos hz]
        exact ⟨rfl, rfl⟩
      rw [← hpneq.1, ← hpneq.2]
      simp only [hrun]
      rw [Bool.or_false] at hrun2 ⊢
      exact hrun2
    · rw [if_neg hz]
      have hpneq : p = (ins.spl.getD i ⟨0, 0⟩).prev ∧ n = (ins.spl.getD i ⟨0, 0⟩).next := by
        rw [hpdef, hndef]
        unfold pnAt
        rw [if_neg hz]
        exact ⟨rfl, rfl⟩
      rw [← hpneq.1, ← hpneq.2]
      simp only [hrun]
      rw [Bool.or_false] at hrun2 ⊢
      exact hrun2

/-! ## `Skiplist.Add` specification -/

/-- The record `(key, value)` is stored at some real node. -/
def recordPresent (s : SkiplistM) (kv : InternalKey × List Nat) : Prop :=
  ∃ x, 3 ≤ x ∧ x < s.nodes.length ∧ 0 < (nodeAt s x).height ∧
    nodeKey s x = kv.1 ∧ (nodeAt s x).value = kv.2

theorem getNext_append_lt (s0 : SkiplistM) (nd : NodeM) (hgt x : Nat)
    (hx : x < s0.nodes.length) (j : Nat) :
    getNext { nodes := s0.nodes ++ [nd], height := hgt } x j = getNext s0 x j := by
  unfold getNext
  rw [nodeAt_append_lt s0 nd hgt x hx]

/-- `Skiplist.Add` when the key is already present: the search finds it,
nothing is written, and `ErrRecordExists` is returned. -/
theorem sklAdd_exists (s : SkiplistM) (key : InternalKey) (value : List Nat) (h : Nat)
    (inv : Inv s) (hp : keyPresent s key) :
    sklAdd s key value h = (AddOut.recordExists, s) := by
  have ht : (findSplice s key freshInserter).1 = true :=
    (findSplice_fresh_spec s key inv).2.2.2.mpr hp
  simp only [sklAdd, addInternal, ht, if_true]

/-- `Skiplist.Add` of an absent key (with any tower height in
`[1, maxHeight]`): succeeds, appends one node carrying exactly the new
record, preserves the invariant, and leaves every other record in
place. -/
theorem sklAdd_ok (s : SkiplistM) (key : InternalKey) (value : List Nat) (h : Nat)
    (inv : Inv s) (hh1 : 1 ≤ h) (hhm : h ≤ maxHeight) (hnp : ¬ keyPresent s key) :
    ∃ s', sklAdd s key value h = (AddOut.ok, s') ∧ Inv s' ∧
      s'.nodes.length = s.nodes.length + 1 ∧
      (∀ kv, recordPresent s' kv ↔ (recordPresent s kv ∨ kv = (key, value))) := by
  have hff : (findSplice s key freshInserter).1 = false := by
    cases hb : (findSplice s key freshInserter).1 with
    | false => rfl
    | true => exact absurd ((findSplice_fresh_spec s key inv).2.2.2.mp hb) hnp
  have hfs := findSplice_fresh_spec s key inv
  set ins := (findSplice s key freshInserter).2 with hins
  set len0 := s.nodes.length with hlen0def
  set nd : NodeM :=
    { key := key.userKey, keyTrailer := key.trailer, value := value,
      height := h, next := List.replicate maxHeight 0, prev := List.replicate maxHeight 0 }
    with hnddef
  set s1 : SkiplistM := { nodes := s.nodes ++ [nd], height := max s.height h } with hs1def
  have hs1len : s1.nodes.length = len0 + 1 := by
    rw [hs1def]
    simp
  have hlen3 : 3 ≤ len0 := inv.nodes_len
  -- the loop hypotheses
  have htow : ∀ x, x < len0 + 1 → (nodeAt s1 x).next.length = maxHeight ∧
      (nodeAt s1 x).prev.length = maxHeight := by
    intro x hx
    by_cases hxl : x < len0
    · rw [hs1def, nodeAt_append_lt s nd _ x hxl]
      exact inv.towers x hxl
    · have hxe : x = len0 := by omega
      rw [hxe, hs1def, nodeAt_append_self s nd _]
      constructor <;> simp [hnddef]
  have hk01 : ∀ x, x < len0 → nodeKey s1 x = nodeKey s x := by
    intro x hx
    unfold nodeKey
    rw [hs1def, nodeAt_append_lt s nd _ x hx]
  have hkNd : nodeKey s1 len0 = key := by
    unfold nodeKey
    rw [hs1def, nodeAt_append_self s nd _]
  have hprevne : ∀ j, j < s.height → (ins.spl.getD j ⟨0, 0⟩).prev ≠ 0 := by
    intro j hj
    rcases (hfs.2.2.1 j hj).1.1 with hh | hh
    · rw [hh]; unfold headId; omega
    · omega
  have hfresh : ∀ j, j < h → (ins.spl.getD j ⟨0, 0⟩).prev = 0 →
      (ins.spl.getD j ⟨0, 0⟩).next = 0 := by
    intro j _ hz
    by_cases hjh : j < s.height
    · exact absurd hz (hprevne j hjh)
    · rw [hfs.2.1 j (by omega)]
  have hpnlow : ∀ j, j < h → s.height ≤ j → pnAt ins j = (headId, tailId) := by
    intro j _ hjh
    unfold pnAt
    rw [hfs.2.1 j hjh]
    rfl
  have hpnhigh : ∀ j, j < s.height →
      pnAt ins j = ((ins.spl.getD j ⟨0, 0⟩).prev, (ins.spl.getD j ⟨0, 0⟩).next) := by
    intro j hj
    unfold pnAt
    rw [if_neg (hprevne j hj)]
  have hsp : ∀ j, j < h →
      (pnAt ins j).1 = headId ∨ (3 ≤ (pnAt ins j).1 ∧ (pnAt ins j).1 < len0 ∧
        j < (nodeAt s (pnAt ins j).1).height ∧ ikLt (nodeKey s (pnAt ins j).1) key) := by
    intro j hj
    by_cases hjh : j < s.height
    · rw [hpnhigh j hjh]
      exact (hfs.2.2.1 j hjh).1.1
    · rw [hpnlow j hj (by omega)]
      exact Or.inl rfl
  have hsn : ∀ j, j < h →
      (pnAt ins j).2 = tailId ∨ (3 ≤ (pnAt ins j).2 ∧ (pnAt ins j).2 < len0 ∧
        ikLt key (nodeKey s (pnAt ins j).2)) := by
    intro j hj
    by_cases hjh : j < s.height
    · rw [hpnhigh j hjh]
      rcases (hfs.2.2.1 j hjh).1.2.2 with hh | hh
      · exact Or.inl hh
      · rcases (hfs.2.2.1 j hjh).2 with hkp | htl | hik
        · exact absurd hkp hnp
        · exact Or.inl htl
        · exact Or.inr ⟨hh.1, hh.2.1, hik⟩
    · rw [hpnlow j hj (by omega)]
      exact Or.inl rfl
  -- initial chains in s1 (the fresh node is not yet linked anywhere)
  have hchain0 : ∀ j, j < maxHeight → ∃ l, NextChain s1 j headId l ∧
      List.Pairwise (fun a b => ikLt (nodeKey s1 a) (nodeKey s1 b)) l ∧
      (∀ x, x ∈ l ↔ ((3 ≤ x ∧ x < len0 ∧ j < (nodeAt s x).height) ∨ (x = len0 ∧ j < 0))) := by
    intro j hj
    obtain ⟨l, hLI⟩ := inv.levels j hj
    refine ⟨l, ?_, ?_, ?_⟩
    · refine nextChain_congr hLI.chain ?_ ?_
      · rw [hs1def]
        exact getNext_append_lt s nd _ headId (by unfold headId; omega) j
      · intro y hy
        rw [hs1def]
        exact getNext_append_lt s nd _ y (hLI.mem_hi y hy) j
    · refine List.Pairwise.imp_of_mem ?_ hLI.sorted
      intro a b ha hb hab
      rw [hk01 a (hLI.mem_hi a ha), hk01 b (hLI.mem_hi b hb)]
      exact hab
    · intro x
      constructor
      · intro hx
        exact Or.inl ⟨hLI.mem_lo x hx, hLI.mem_hi x hx, hLI.mem_height x hx⟩
      · intro hx
        rcases hx with hcc | hcc
        · exact hLI.complete x hcc.1 hcc.2.1 hcc.2.2
        · omega
  have hstab : ∀ j, 0 ≤ j → j < h → getNext s1 (pnAt ins j).1 j = (pnAt ins j).2 := by
    intro j _ hj
    by_cases hjh : j < s.height
    · rw [hpnhigh j hjh, hs1def]
      have hplt : (ins.spl.getD j ⟨0, 0⟩).prev < len0 := by
        rcases (hfs.2.2.1 j hjh).1.1 with hh | hh
        · rw [hh]; unfold headId; omega
        · omega
      rw [getNext_append_lt s nd _ _ hplt j]
      exact (hfs.2.2.1 j hjh).1.2.1
    · rw [hpnlow j hj (by omega), hs1def]
      rw [getNext_append_lt s nd _ headId (by unfold headId; omega) j]
      obtain ⟨l, hLI⟩ := inv.levels j (by omega)
      cases hLI.chain with
      | nil _ hnx => exact hnx
      | cons _ y rest hy hyt _ =>
        have hym : y ∈ y :: rest := List.mem_cons_self y rest
        have := hLI.mem_height y hym
        have := inv.node_height_le y (hLI.mem_lo y hym) (hLI.mem_hi y hym)
        omega
  obtain ⟨t', hrun, hshape, hfinal⟩ :=
    linkLevels_loop s s1 key h len0 len0 ins rfl hlen3 hhm hs1len htow hk01 hkNd
      hfresh hsp hsn h 0 s1 false (by omega) (sameShape_refl s1) hchain0 hstab
  have ht'len : t'.nodes.length = len0 + 1 := by rw [hshape.1, hs1len]
  -- assemble the returned value
  have hres : sklAdd s key value h = (AddOut.ok, t') := by
    have hnn1 : (newNodeM s key value h).1 = len0 := rfl
    have hnn2 : (newNodeM s key value h).2 = s1 := rfl
    simp only [sklAdd, addInternal, hff, Bool.false_eq_true, if_false, hnn1, hnn2,
      ← hins, hrun]
  -- key / value / height transfer from `s` (below `len0`) and the new node
  have hkey1 : ∀ x, x < len0 → nodeKey t' x = nodeKey s x := by
    intro x hx
    rw [sameShape_nodeKey hshape x]
    exact hk01 x hx
  have hkeyNd : nodeKey t' len0 = key := by
    rw [sameShape_nodeKey hshape len0]
    exact hkNd
  have hval1 : ∀ x, x < len0 → (nodeAt t' x).value = (nodeAt s x).value := by
    intro x hx
    rw [(hshape.2.2 x).2.2.1, hs1def, nodeAt_append_lt s nd _ x hx]
  have hvalNd : (nodeAt t' len0).value = value := by
    rw [(hshape.2.2 len0).2.2.1, hs1def, nodeAt_append_self s nd _]
  have hht1 : ∀ x, x < len0 → (nodeAt t' x).height = (nodeAt s x).height := by
    intro x hx
    rw [(hshape.2.2 x).2.2.2.1, hs1def, nodeAt_append_lt s nd _ x hx]
  have hhtNd : (nodeAt t' len0).height = h := by
    rw [(hshape.2.2 len0).2.2.2.1, hs1def, nodeAt_append_self s nd _]
  have hinv : Inv t' := by
    refine ⟨?_, ?_, ?_, ?_, ?_, ?_, ?_⟩
    · rw [ht'len]
      omega
    · rw [hshape.2.1, hs1def]
      exact le_trans inv.height_pos (le_max_left _ _)
    · rw [hshape.2.1, hs1def]
      exact max_le inv.height_le hhm
    · intro x h3 hxlen
      rw [ht'len] at hxlen
      by_cases hx : x < len0
      · rw [hht1 x hx]
        exact inv.node_height_pos x h3 hx
      · have hxe : x = len0 := by omega
        rw [hxe, hhtNd]
        exact hh1
    · intro x h3 hxlen
      rw [ht'len] at hxlen
      rw [hshape.2.1, hs1def]
      by_cases hx : x < len0
      · rw [hht1 x hx]
        exact le_trans (inv.node_height_le x h3 hx) (le_max_left _ _)
      · have hxe : x = len0 := by omega
        rw [hxe, hhtNd]
        exact le_max_right _ _
    · intro x hxlen
      rw [ht'len] at hxlen
      exact ⟨by rw [(hshape.2.2 x).2.2.2.2.1]; exact (htow x hxlen).1,
        by rw [(hshape.2.2 x).2.2.2.2.2]; exact (htow x hxlen).2⟩
    · intro j hj
      obtain ⟨l, hch, hsort, hmem⟩ := hfinal j hj
      refine ⟨l, hch, ?_, ?_, ?_, ?_, hsort⟩
      · intro x hx
        rcases (hmem x).mp hx with hcc | hcc
        · exact hcc.1
        · omega
      · intro x hx
        rw [ht'len]
        rcases (hmem x).mp hx with hcc | hcc
        · omega
        · omega
      · intro x hx
        rcases (hmem x).mp hx with hcc | hcc
        · rw [hht1 x hcc.2.1]
          exact hcc.2.2
        · rw [hcc.1, hhtNd]
          exact hcc.2
      · intro x h3 hxlen hxh
        rw [ht'len] at hxlen
        by_cases hx : x < len0
        · rw [hht1 x hx] at hxh
          exact (hmem x).mpr (Or.inl ⟨h3, hx, hxh⟩)
        · have hxe : x = len0 := by omega
          rw [hxe, hhtNd] at hxh
          exact (hmem x).mpr (Or.inr ⟨hxe, hxh⟩)
  refine ⟨t', hres, hinv, by rw [ht'len], ?_⟩
  intro kv
  constructor
  · rintro ⟨x, h3, hxlen, hpos, hkx, hvx⟩
    rw [ht'len] at hxlen
    by_cases hx : x < len0
    · refine Or.inl ⟨x, h3, hx, ?_, ?_, ?_⟩
      · rw [← hht1 x hx]
        exact hpos
      · rw [← hkey1 x hx]
        exact hkx
      · rw [← hval1 x hx]
        exact hvx
    · have hxe : x = len0 := by omega
      rw [hxe] at hkx hvx
      have h1 : kv.1 = key := hkx.symm.trans hkeyNd
      have h2 : kv.2 = value := hvx.symm.trans hvalNd
      exact Or.inr (Prod.ext h1 h2)
  · rintro (⟨x, h3, hxlen, hpos, hkx, hvx⟩ | hkv)
    · refine ⟨x, h3, by omega, ?_, ?_, ?_⟩
      · rw [hht1 x hxlen]
        exact hpos
      · rw [hkey1 x hxlen]
        exact hkx
      · rw [hval1 x hxlen]
        exact hvx
    · refine ⟨len0, hlen3, by omega, ?_, ?_, ?_⟩
      · rw [hhtNd]
        omega
      · rw [hkeyNd, hkv]
      · rw [hvalNd, hkv]

/-! ## Forward iteration -/

theorem iterForwardGo_spec (s : SkiplistM) :
    ∀ (l : List Nat) (it : IteratorM) (fuel : Nat),
    it.upper = none → it.upperNode = none →
    NextChain s 0 it.node l →
    (∀ y ∈ l, 3 ≤ y) →
    l.length < fuel →
    iterForwardGo s fuel it = l.map (fun y => (nodeKey s y, (nodeAt s y).value)) := by
  intro l
  induction l with
  | nil =>
    intro it fuel hup hupn hch hmem hf
    obtain ⟨f, rfl⟩ : ∃ f, fuel = f + 1 := ⟨fuel - 1, by omega⟩
    cases hch with
    | nil _ hnx =>
      have hstep : iterNext s it = (none, { it with node := tailId }) := by
        unfold iterNext iterStepForward
        rw [hnx, if_pos (Or.inl rfl)]
      simp only [iterForwardGo, hstep, List.map_nil]
  | cons y rest ih =>
    intro it fuel hup hupn hch hmem hf
    obtain ⟨f, rfl⟩ : ∃ f, fuel = f + 1 := ⟨fuel - 1, by omega⟩
    cases hch with
    | cons _ _ _ hy hyt hrest =>
      have hstep : iterNext s it =
          (some (nodeKey s y, (nodeAt s y).value), { it with node := y }) := by
        unfold iterNext iterStepForward
        rw [hy, if_neg, hup]
        intro hc
        rcases hc with hc | hc
        · exact hyt hc
        · rw [hupn] at hc
          cases hc
      simp only [iterForwardGo, hstep, List.map_cons]
      refine congrArg _ (ih { it with node := y } f hup hupn hrest ?_ ?_)
      · intro z hz
        exact hmem z (List.mem_cons_of_mem y hz)
      · simp at hf
        omega

theorem iterForward_spec (s : SkiplistM) (l : List Nat)
    (hch : NextChain s 0 headId l) (hmem : ∀ y ∈ l, 3 ≤ y)
    (hlen : l.length ≤ s.nodes.length) :
    iterForward s = l.map (fun y => (nodeKey s y, (nodeAt s y).value)) := by
  cases hch with
  | nil _ hnx =>
    have hstep : iterFirst s (sklIter none none) =
        (none, { sklIter none none with node := tailId }) := by
      unfold iterFirst iterStepForward
      show (if getNext s headId 0 = tailId ∨ (sklIter none none).upperNode =
          some (getNext s headId 0) then _ else _) = _
      rw [hnx, if_pos (Or.inl rfl)]
    simp only [iterForward, hstep, List.map_nil]
  | cons _ y rest hy hyt hrest =>
    have hstep : iterFirst s (sklIter none none) =
        (some (nodeKey s y, (nodeAt s y).value), { sklIter none none with node := y }) := by
      unfold iterFirst iterStepForward
      show (if getNext s headId 0 = tailId ∨ (sklIter none none).upperNode =
          some (getNext s headId 0) then _ else _) = _
      rw [hy, if_neg]
      · rfl
      · intro hc
        rcases hc with hc | hc
        · exact hyt hc
        · cases hc
    simp only [iterForward, hstep, List.map_cons]
    refine congrArg _ (iterForwardGo_spec s rest { sklIter none none with node := y }
      (s.nodes.length + 1) rfl rfl hrest ?_ ?_)
    · intro z hz
      exact hmem z (List.mem_cons_of_mem y hz)
    · simp only [List.length_cons] at hlen
      omega

/-! ## Sequences of `Add` calls -/

theorem recordPresent_empty (kv : InternalKey × List Nat) :
    ¬ recordPresent emptySkiplist kv := by
  rintro ⟨x, h3, hlen, _⟩
  simp [emptySkiplist] at hlen
  omega

theorem runAdds_spec :
    ∀ (ops : List (InternalKey × List Nat × Nat)) (s : SkiplistM),
    (∀ op ∈ ops, 1 ≤ op.2.2 ∧ op.2.2 ≤ maxHeight) → Inv s →
    Inv (runAdds s ops).1 ∧
    (∀ kv, recordPresent (runAdds s ops).1 kv ↔
      (recordPresent s kv ∨ kv ∈ (runAdds s ops).2)) := by
  intro ops
  induction ops with
  | nil =>
    intro s _ hinv
    refine ⟨hinv, fun kv => ?_⟩
    show recordPresent s kv ↔ recordPresent s kv ∨ kv ∈ ([] : List (InternalKey × List Nat))
    simp
  | cons op rest ih =>
    intro s hops hinv
    have hop := hops op (List.mem_cons_self op rest)
    have hrest : ∀ o ∈ rest, 1 ≤ o.2.2 ∧ o.2.2 ≤ maxHeight :=
      fun o ho => hops o (List.mem_cons_of_mem op ho)
    by_cases hp : keyPresent s op.1
    · have hadd := sklAdd_exists s op.1 op.2.1 op.2.2 hinv hp
      have hco : runAdds s (op :: rest) = ((runAdds s rest).1, (runAdds s rest).2) := by
        simp only [runAdds, hadd]
        rw [if_neg (by intro hc; cases hc)]
      obtain ⟨h1, h2⟩ := ih s hrest hinv
      refine ⟨by rw [hco]; exact h1, fun kv => ?_⟩
      rw [hco]
      exact h2 kv
    · obtain ⟨s', hadd, hinv', hlen', hrec⟩ :=
        sklAdd_ok s op.1 op.2.1 op.2.2 hinv hop.1 hop.2 hp
      have hco : runAdds s (op :: rest) =
          ((runAdds s' rest).1, (op.1, op.2.1) :: (runAdds s' rest).2) := by
        simp only [runAdds, hadd]
        rw [if_pos trivial]
      obtain ⟨h1, h2⟩ := ih s' hrest hinv'
      refine ⟨by rw [hco]; exact h1, fun kv => ?_⟩
      rw [hco]
      show recordPresent (runAdds s' rest).1 kv ↔
        recordPresent s kv ∨ kv ∈ (op.1, op.2.1) :: (runAdds s' rest).2
      rw [h2 kv, hrec kv, List.mem_cons]
      tauto

/-- C1: for every sequence of `Skiplist.Add` calls (each drawing a tower
height in `[1, maxHeight]`, the range `randomHeight` produces), a
forward iteration — `First`, then repeated `Next` until exhaustion —
over the resulting list emits exactly the records of the successful
calls, in strictly increasing internal-key order (user key ascending
byte-lexicographically, then trailer descending, the trailer being the
sequence number and kind packed with the kind in the low byte, so
sequence number descending then kind descending); in particular, after
inserting (a,10,Set), (a,11,Set), (b,10,Set) the iteration yields
(a,11,Set), (a,10,Set), (b,10,Set). -/
theorem skiplist_forward_iteration_order
    (ops : List (InternalKey × List Nat × Nat))
    (hops : ∀ op ∈ ops, 1 ≤ op.2.2 ∧ op.2.2 ≤ maxHeight) :
    List.Pairwise (fun a b => ikLt a.1 b.1) (iterForward (runAdds emptySkiplist ops).1) ∧
    (∀ kv, kv ∈ iterForward (runAdds emptySkiplist ops).1 ↔
      kv ∈ (runAdds emptySkiplist ops).2) ∧
    iterForward (runAdds emptySkiplist
      [(⟨[97], MakeTrailer 10 1⟩, [0], 1), (⟨[97], MakeTrailer 11 1⟩, [1], 1),
        (⟨[98], MakeTrailer 10 1⟩, [2], 1)]).1 =
      [(⟨[97], MakeTrailer 11 1⟩, [1]), (⟨[97], MakeTrailer 10 1⟩, [0]),
        (⟨[98], MakeTrailer 10 1⟩, [2])] := by
  obtain ⟨hinv, hrec⟩ := runAdds_spec ops emptySkiplist hops inv_empty
  set sf := (runAdds emptySkiplist ops).1 with hsf
  obtain ⟨l, hLI⟩ := hinv.levels 0 (by unfold maxHeight; omega)
  have hlen := levelInv_length hinv.nodes_len hLI
  have hiter := iterForward_spec sf l hLI.chain hLI.mem_lo (by omega)
  refine ⟨?_, ?_, by decide⟩
  · rw [hiter, List.pairwise_map]
    exact hLI.sorted
  · intro kv
    rw [hiter, List.mem_map]
    constructor
    · rintro ⟨x, hx, hfx⟩
      have h1 : nodeKey sf x = kv.1 := congrArg Prod.fst hfx
      have h2 : (nodeAt sf x).value = kv.2 := congrArg Prod.snd hfx
      have hr : recordPresent sf kv :=
        ⟨x, hLI.mem_lo x hx, hLI.mem_hi x hx, hLI.mem_height x hx, h1, h2⟩
      rcases (hrec kv).mp hr with hcc | hcc
      · exact absurd hcc (recordPresent_empty kv)
      · exact hcc
    · intro hkv
      obtain ⟨x, h3, hxlen, hpos, hk, hv⟩ := (hrec kv).mpr (Or.inr hkv)
      exact ⟨x, hLI.complete x h3 hxlen hpos, Prod.ext hk hv⟩

theorem skiplist_forward_iteration_order_witness :
    (∀ op ∈ ([(⟨[97], MakeTrailer 10 1⟩, [0], 1), (⟨[97], MakeTrailer 11 1⟩, [1], 1),
        (⟨[98], MakeTrailer 10 1⟩, [2], 1)] : List (InternalKey × List Nat × Nat)),
      1 ≤ op.2.2 ∧ op.2.2 ≤ maxHeight) ∧
    iterForward (runAdds emptySkiplist
      [(⟨[97], MakeTrailer 10 1⟩, [0], 1), (⟨[97], MakeTrailer 11 1⟩, [1], 1),
        (⟨[98], MakeTrailer 10 1⟩, [2], 1)]).1 =
      [(⟨[97], MakeTrailer 11 1⟩, [1]), (⟨[97], MakeTrailer 10 1⟩, [0]),
        (⟨[98], MakeTrailer 10 1⟩, [2])] :=
  ⟨by decide, (skiplist_forward_iteration_order
    [(⟨[97], MakeTrailer 10 1⟩, [0], 1), (⟨[97], MakeTrailer 11 1⟩, [1], 1),
      (⟨[98], MakeTrailer 10 1⟩, [2], 1)] (by decide)).2.2⟩

/-! ## Memtable (`pkg/memtable/memtable.go`, `pkg/memtable/errors.go`) -/

/-- The `pkg/memtable` error values (`errors.go`), plus `bug` standing
for a Go panic propagating out of a skiplist call (the theorems show it
does not occur in the verified runs). -/
inductive MtErr
  | recordExists
  | memtableFlushed
  | memtableFull
  | memtableActive
  | invalidSeqNum
  | bug
  deriving DecidableEq, Repr

/-- The memtable state: the creation-time sequence number, the skiplist
node structure, the skiplist's arena pointer (`none` once detached by
`skiplist.Reset(nil)`), the reader reference count, and the read-only
flag.  The WAL, the comparator and the writer wait-group do not affect
any observable of a sequential run (`writers.Add(1)` is always paired
with the deferred `Done`, so the counter is zero between calls) and are
omitted. -/
structure MemTableM where
  seqNum : Nat
  skl : SkiplistM
  arena : Option Arena
  references : Nat
  readOnly : Bool
  deriving DecidableEq, Repr

/-- The three outcomes of the Go `skiplist.Add`: `nil`, `ErrArenaFull`
(from node allocation in the arena), `ErrRecordExists`. -/
inductive SklErr
  | ok
  | arenaFull
  | recordExists
  deriving DecidableEq, Repr

/-- The error translation at the tail of `MemTable.Add`: success gives
`nil`, `skiplist.ErrArenaFull` gives `ErrMemtableFlushed` (the code maps
the arena-full failure to the flushed error, not to `ErrMemtableFull`),
`skiplist.ErrRecordExists` gives `ErrRecordExists`. -/
def mtAddTranslate : SklErr → Option MtErr
  | .ok => none
  | .arenaFull => some .memtableFlushed
  | .recordExists => some .recordExists

/-- `MemTable.Add` with the outcome of the `Skiplist.Add` call supplied
as a parameter: the sequence-number check, the read-only re-check, then
the error translation. -/
def mtAddGiven (m : MemTableM) (seq : Nat) (r : SklErr) : Option MtErr :=
  if seq < m.seqNum then some .invalidSeqNum
  else if m.readOnly then some .memtableFlushed
  else mtAddTranslate r

/-- `MemTable.Add` over the embedded skiplist (whose abstracted arena
never fills): reject a record sequence number below the creation
sequence number, re-check the read-only flag, then `Skiplist.Add` with
the drawn tower height `h`. -/
def mtAdd (m : MemTableM) (key : InternalKey) (value : List Nat) (h : Nat) :
    Option MtErr × MemTableM :=
  if trailerSeqNum key.trailer < m.seqNum then (some .invalidSeqNum, m)
  else if m.readOnly then (some .memtableFlushed, m)
  else
    let r := sklAdd m.skl key value h
    match r.1 with
    | .ok => (none, { m with skl := r.2 })
    | .recordExists => (some .recordExists, { m with skl := r.2 })
    | .bug => (some .bug, { m with skl := r.2 })

/-- Repeated `Add` of one key, with per-attempt value and height. -/
def mtAddN : MemTableM → InternalKey → List (List Nat × Nat) →
    List (Option MtErr) × MemTableM
  | m, _, [] => ([], m)
  | m, key, a :: rest =>
    let r := mtAdd m key a.1 a.2
    let out := mtAddN r.2 key rest
    (r.1 :: out.1, out.2)

/-- `MemTable.Size`: zero once the arena was released, else
`skiplist.Size()`, which returns `arena.Len()`. -/
def mtSize (m : MemTableM) : Nat :=
  match m.arena with
  | none => 0
  | some a => a.Len

/-- `MemTable.Cap`: zero once the arena was released, else
`arena.Cap()`. -/
def mtCap (m : MemTableM) : Nat :=
  match m.arena with
  | none => 0
  | some a => a.Cap

/-- `MemTable.IsActive`: the reference count is nonzero. -/
def mtIsActive (m : MemTableM) : Bool := m.references ≠ 0

/-- `MemTable.ReleaseArena`, verbatim: `if !m.IsActive() { return nil,
ErrMemtableActive }`; otherwise grab the arena pointer and
`skiplist.Reset(nil)` (which zeroes the skiplist, detaching the
arena), returning the arena. -/
def mtReleaseArena (m : MemTableM) : Option Arena × Option MtErr × MemTableM :=
  if ¬ (mtIsActive m = true) then (none, some .memtableActive, m)
  else (m.arena, none, { m with arena := none, skl := { nodes := [], height := 0 } })

/-- `MemTable.Flush`, sequentially: CAS the read-only flag from `false`
to `true`; on success the spawned goroutine runs to completion before
the next call (the writer count is zero between sequential calls),
delivering the flush iterator to the callback once — the returned flag
records that single handoff — and dropping the flush reference. -/
def mtFlush (m : MemTableM) : MemTableM × Bool :=
  if m.readOnly = false then
    ({ m with readOnly := true, references := m.references - 1 }, true)
  else (m, false)

/-- `N` sequential `Flush` calls, counting the flush handoffs. -/
def mtFlushN : MemTableM → Nat → MemTableM × Nat
  | m, 0 => (m, 0)
  | m, n + 1 =>
    let r := mtFlush m
    let out := mtFlushN r.1 n
    (out.1, (if r.2 then 1 else 0) + out.2)

/-- Once the key is present, every further `Add` of it returns
`ErrRecordExists` and leaves the memtable untouched. -/
theorem mtAddN_exists (key : InternalKey) :
    ∀ (rest : List (List Nat × Nat)) (m : MemTableM),
    Inv m.skl → m.readOnly = false → m.seqNum ≤ trailerSeqNum key.trailer →
    keyPresent m.skl key →
    mtAddN m key rest = (List.replicate rest.length (some MtErr.recordExists), m) := by
  intro rest
  induction rest with
  | nil =>
    intro m _ _ _ _
    rfl
  | cons b rest ih =>
    intro m hinv hro hseq hkp
    have hstep : mtAdd m key b.1 b.2 = (some MtErr.recordExists, m) := by
      unfold mtAdd
      rw [if_neg (by omega), if_neg (by simp [hro])]
      simp only [sklAdd_exists m.skl key b.1 b.2 hinv hkp]
    simp only [mtAddN, hstep, ih m hinv hro hseq hkp, List.length_cons,
      List.replicate_succ]

/-- C2: duplicate inserts of one internal key `(u, s, k)` into a
writable memtable whose creation sequence number admits `s` and which
does not yet hold the key: the first `Add` succeeds, and every later
attempt — whatever value or tower height it carries — fails with
`ErrRecordExists` and leaves the memtable, records included, exactly as
the single successful insert left it. -/
theorem memtable_duplicate_inserts (m : MemTableM) (key : InternalKey)
    (a : List Nat × Nat) (rest : List (List Nat × Nat))
    (hinv : Inv m.skl) (hro : m.readOnly = false)
    (hseq : m.seqNum ≤ trailerSeqNum key.trailer)
    (hnp : ¬ keyPresent m.skl key)
    (hha : 1 ≤ a.2 ∧ a.2 ≤ maxHeight) :
    (mtAddN m key (a :: rest)).1 =
      none :: List.replicate rest.length (some MtErr.recordExists) ∧
    (mtAddN m key (a :: rest)).2 = (mtAdd m key a.1 a.2).2 := by
  obtain ⟨s', hadd, hinv', hlen', hrec⟩ := sklAdd_ok m.skl key a.1 a.2 hinv hha.1 hha.2 hnp
  have hstep1 : mtAdd m key a.1 a.2 = (none, { m with skl := s' }) := by
    unfold mtAdd
    rw [if_neg (by omega), if_neg (by simp [hro])]
    simp only [hadd]
  have hkp : keyPresent s' key := by
    obtain ⟨x, h3, hxlen, hpos, hk, _⟩ := (hrec (key, a.1)).mpr (Or.inr rfl)
    exact ⟨x, h3, hxlen, hpos, hk⟩
  have htail := mtAddN_exists key rest { m with skl := s' } hinv' hro hseq hkp
  constructor
  · simp only [mtAddN, hstep1, htail]
  · simp only [mtAddN, hstep1, htail]

/-- C2 witness: three inserts of `(a, 10, Set)` with different values
into a fresh memtable. -/
theorem memtable_duplicate_inserts_witness :
    (mtAddN ⟨0, emptySkiplist, some (NewArena 4096), 1, false⟩ ⟨[97], MakeTrailer 10 1⟩
      [([0], 1), ([1], 1), ([2], 1)]).1 =
      [none, some MtErr.recordExists, some MtErr.recordExists] := by
  have hnp : ¬ keyPresent
      (MemTableM.mk 0 emptySkiplist (some (NewArena 4096)) 1 false).skl
      ⟨[97], MakeTrailer 10 1⟩ := by
    rintro ⟨x, h3, hxlen, -⟩
    simp [emptySkiplist] at hxlen
    omega
  have := (memtable_duplicate_inserts ⟨0, emptySkiplist, some (NewArena 4096), 1, false⟩
    ⟨[97], MakeTrailer 10 1⟩ ([0], 1) [([1], 1), ([2], 1)] inv_empty rfl
    (by decide) hnp (by decide)).1
  simpa using this

/-- C5 (code bug): the advisory-error translation of `MemTable.Add` for
a writable memtable and admissible sequence number.  Success,
`RecordExists` and (separately, via the read-only check) the flushed
rejection behave as specified, but a `Skiplist.Add` failure with
`ErrArenaFull` is translated to `ErrMemtableFlushed` — not to the
otherwise-unused `ErrMemtableFull` that names the actual failure
cause. -/
theorem memtable_add_error_translation (m : MemTableM) (seq : Nat)
    (hseq : m.seqNum ≤ seq) (hro : m.readOnly = false) :
    mtAddGiven m seq SklErr.arenaFull = some MtErr.memtableFlushed ∧
    MtErr.memtableFlushed ≠ MtErr.memtableFull ∧
    mtAddGiven m seq SklErr.recordExists = some MtErr.recordExists ∧
    mtAddGiven m seq SklErr.ok = none := by
  have h1 : ¬ seq < m.seqNum := by omega
  have h2 : ¬ (m.readOnly = true) := by simp [hro]
  refine ⟨?_, by simp, ?_, ?_⟩
  · unfold mtAddGiven
    rw [if_neg h1, if_neg h2]
    rfl
  · unfold mtAddGiven
    rw [if_neg h1, if_neg h2]
    rfl
  · unfold mtAddGiven
    rw [if_neg h1, if_neg h2]
    rfl

/-- C5 witness: a fresh memtable, sequence number 10. -/
theorem memtable_add_error_translation_witness :
    mtAddGiven ⟨0, emptySkiplist, some (NewArena 4096), 1, false⟩ 10 SklErr.arenaFull =
      some MtErr.memtableFlushed ∧
    MtErr.memtableFlushed ≠ MtErr.memtableFull :=
  ⟨(memtable_add_error_translation ⟨0, emptySkiplist, some (NewArena 4096), 1, false⟩ 10
      (by decide) rfl).1,
   (memtable_add_error_translation ⟨0, emptySkiplist, some (NewArena 4096), 1, false⟩ 10
      (by decide) rfl).2.1⟩

/-- C6 (code bug): `ReleaseArena`'s guard is inverted (`if !m.IsActive()`
where its own doc comment and error value call for `if m.IsActive()`):
on a quiescent memtable (reference count zero) it fails with
`ErrMemtableActive` and changes nothing, while on an active memtable it
detaches and returns the arena, after which `Size` and `Cap` report
zero. -/
theorem memtable_release_arena_inverted (m : MemTableM) :
    (m.references = 0 → mtReleaseArena m = (none, some MtErr.memtableActive, m)) ∧
    (m.references ≠ 0 →
      (mtReleaseArena m).1 = m.arena ∧ (mtReleaseArena m).2.1 = none ∧
      mtSize (mtReleaseArena m).2.2 = 0 ∧ mtCap (mtReleaseArena m).2.2 = 0) := by
  constructor
  · intro h0
    unfold mtReleaseArena
    rw [if_pos]
    simp [mtIsActive, h0]
  · intro hne
    unfold mtReleaseArena
    rw [if_neg]
    · exact ⟨rfl, rfl, rfl, rfl⟩
    · simp [mtIsActive, hne]

/-- C6 witness: a quiescent memtable (0 references) is refused with
`ErrMemtableActive`; an active one (1 reference) hands over its arena
and reports zero sizes. -/
theorem memtable_release_arena_inverted_witness :
    mtReleaseArena ⟨0, emptySkiplist, some (NewArena 4096), 0, false⟩ =
      (none, some MtErr.memtableActive, ⟨0, emptySkiplist, some (NewArena 4096), 0, false⟩) ∧
    (mtReleaseArena ⟨0, emptySkiplist, some (NewArena 4096), 1, false⟩).1 =
      some (NewArena 4096) ∧
    mtSize (mtReleaseArena ⟨0, emptySkiplist, some (NewArena 4096), 1, false⟩).2.2 = 0 ∧
    mtCap (mtReleaseArena ⟨0, emptySkiplist, some (NewArena 4096), 1, false⟩).2.2 = 0 :=
  ⟨(memtable_release_arena_inverted ⟨0, emptySkiplist, some (NewArena 4096), 0, false⟩).1 rfl,
   ((memtable_release_arena_inverted ⟨0, emptySkiplist, some (NewArena 4096), 1, false⟩).2
      (by decide)).1,
   ((memtable_release_arena_inverted ⟨0, emptySkiplist, some (NewArena 4096), 1, false⟩).2
      (by decide)).2.2.1,
   ((memtable_release_arena_inverted ⟨0, emptySkiplist, some (NewArena 4096), 1, false⟩).2
      (by decide)).2.2.2⟩

/-- Flush is a no-op once the read-only flag is set. -/
theorem mtFlushN_readOnly : ∀ (n : Nat) (m : MemTableM), m.readOnly = true →
    mtFlushN m n = (m, 0) := by
  intro n
  induction n with
  | zero =>
    intro m _
    rfl
  | succ n ih =>
    intro m hro
    have hstep : mtFlush m = (m, false) := by
      unfold mtFlush
      rw [if_neg (by simp [hro])]
    simp only [mtFlushN, hstep, ih m hro]
    rfl

/-- C7: the read-only transition is idempotent: `N ≥ 1` sequential
`Flush` calls on a not-yet-flushed memtable deliver the flush handoff
exactly once — only the first call's CAS of the read-only flag from
`false` to `true` succeeds, and the flag stays set. -/
theorem memtable_flush_idempotent (m : MemTableM) (N : Nat)
    (hro : m.readOnly = false) (hN : 1 ≤ N) :
    (mtFlushN m N).2 = 1 ∧ (mtFlushN m N).1.readOnly = true := by
  obtain ⟨n, rfl⟩ : ∃ n, N = n + 1 := ⟨N - 1, by omega⟩
  have hstep : mtFlush m =
      ({ m with readOnly := true, references := m.references - 1 }, true) := by
    unfold mtFlush
    rw [if_pos hro]
  have hrest := mtFlushN_readOnly n
    { m with readOnly := true, references := m.references - 1 } rfl
  simp only [mtFlushN, hstep, hrest]
  exact ⟨rfl, trivial⟩

/-- C7 witness: three `Flush` calls on a fresh memtable deliver exactly
one handoff. -/
theorem memtable_flush_idempotent_witness :
    (mtFlushN ⟨0, emptySkiplist, some (NewArena 4096), 1, false⟩ 3).2 = 1 :=
  (memtable_flush_idempotent ⟨0, emptySkiplist, some (NewArena 4096), 1, false⟩ 3
    rfl (by decide)).1

/-! ## Height selection (`randomHeight` and the `probabilities` table) -/

/-- The `probabilities` array as the package `init` function computes it:
`p` starts at `1.0` and is multiplied by the IEEE-754 double `1/math.E`
each round, and entry `i` is `uint32(float64(math.MaxUint32) * p)` — a
truncating conversion of `(2^32 − 1) · p` with `p` carrying the
accumulated double-rounding of the repeated multiplication.  These
twenty values are that computation's results.  They are close to, but
not identical with, `⌊2^32 · (1/e)^i⌋`: at `i = 5` the table holds
`28939261` while `⌊2^32 · e^(−5)⌋ = 28939262` (the real value is
`28939262.0032…`, and `(2^32 − 1) · p₅` falls just below the integer). -/
def probabilities : List Nat :=
  [4294967295, 1580030168, 581260615, 213833830, 78665070,
   28939261, 10646159, 3916503, 1440801, 530041,
   194991, 71733, 26389, 9708, 3571,
   1313, 483, 177, 65, 24]

/-- The loop of `Skiplist.randomHeight`:
`for h < maxHeight && rnd <= probabilities[h] { h++ }`.  The fuel
(`maxHeight` at the top call) bounds the at most `maxHeight − 1`
increments. -/
def randomHeightGo (rnd : Nat) : Nat → Nat → Nat
  | 0, h => h
  | fuel + 1, h =>
    if h < maxHeight ∧ rnd ≤ probabilities.getD h 0 then randomHeightGo rnd fuel (h + 1)
    else h

/-- `Skiplist.randomHeight` as a function of the 32-bit draw
`rnd = fastrand.Uint32()`: start at `h = 1` and walk up. -/
def randomHeightM (rnd : Nat) : Nat := randomHeightGo rnd maxHeight 1

theorem randomHeightGo_spec (rnd : Nat) :
    ∀ (fuel h : Nat), 1 ≤ h → h ≤ maxHeight → maxHeight ≤ h + fuel →
    h ≤ randomHeightGo rnd fuel h ∧
    randomHeightGo rnd fuel h ≤ maxHeight ∧
    (∀ j, h ≤ j → j < randomHeightGo rnd fuel h → rnd ≤ probabilities.getD j 0) ∧
    (randomHeightGo rnd fuel h < maxHeight →
      probabilities.getD (randomHeightGo rnd fuel h) 0 < rnd) := by
  intro fuel
  induction fuel with
  | zero =>
    intro h h1 hm hfm
    simp only [randomHeightGo]
    refine ⟨le_refl h, hm, ?_, by omega⟩
    intro j hj hj2
    omega
  | succ fuel ih =>
    intro h h1 hm hfm
    by_cases hc : h < maxHeight ∧ rnd ≤ probabilities.getD h 0
    · have hrw : randomHeightGo rnd (fuel + 1) h = randomHeightGo rnd fuel (h + 1) := by
        simp only [randomHeightGo, if_pos hc]
      obtain ⟨a1, a2, a3, a4⟩ := ih (h + 1) (by omega) (by omega) (by omega)
      rw [hrw]
      refine ⟨by omega, a2, ?_, a4⟩
      intro j hj hj2
      by_cases hjh : j = h
      · rw [hjh]
        exact hc.2
      · exact a3 j (by omega) hj2
    · have hrw : randomHeightGo rnd (fuel + 1) h = h := by
        simp only [randomHeightGo, if_neg hc]
      rw [hrw]
      refine ⟨le_refl h, hm, by omega, ?_⟩
      intro hlt
      rcases not_and_or.mp hc with hc1 | hc2
      · omega
      · omega

/-- C8 (corrected): for every 32-bit draw `r` the height selection
returns the smallest `h ∈ [1, 19]` with `r > probabilities[h]` — the
table being the float64-evaluated `uint32((2^32 − 1) · (1/e)^h)` of the
package `init`, not `⌊2^32 · (1/e)^h⌋` — and `maxHeight = 20` when no
such `h` exists; the returned tower height always lies in `[1, 20]`.
(The three middle conjuncts state minimality: every level strictly below
the result keeps `r ≤ probabilities[j]`, and an uncapped result has
`r > probabilities[h]` at the result itself.) -/
theorem random_height_spec (r : Nat) :
    1 ≤ randomHeightM r ∧ randomHeightM r ≤ maxHeight ∧
    (∀ j, 1 ≤ j → j < randomHeightM r → r ≤ probabilities.getD j 0) ∧
    (randomHeightM r < maxHeight → probabilities.getD (randomHeightM r) 0 < r) := by
  have h := randomHeightGo_spec r maxHeight 1 (le_refl 1) (by norm_num [maxHeight]) (by omega)
  exact ⟨h.1, h.2.1, fun j hj => h.2.2.1 j hj, h.2.2.2⟩

/-- C8 counterexample: on the draw `r = 28939262` the code returns
height 5, but the claimed rule — smallest `h` with
`r > P[h] = ⌊2^32 · (1/e)^h⌋` — gives 6: the second conjunct shows
`r ≤ 2^32 · (1/e)^h` (hence `r ≤ P[h]`, as `r` is an integer) for every
`h ∈ [1, 5]`, and the third shows `2^32 · (1/e)^6 < r` (hence
`r > P[6]`). -/
theorem random_height_counterexample :
    randomHeightM 28939262 = 5 ∧
    (∀ h, 1 ≤ h → h ≤ 5 → (28939262 : ℝ) ≤ 2 ^ 32 * ((Real.exp 1)⁻¹) ^ h) ∧
    ((2 ^ 32 : ℝ) * ((Real.exp 1)⁻¹) ^ 6 < 28939262) := by
  have he := abs_le.mp Real.exp_one_near_20
  set q : ℝ := 363916618873 / 133877442384 with hq
  have hlo : q - 1 / 10 ^ 20 ≤ Real.exp 1 := by linarith [he.1]
  have hhi : Real.exp 1 ≤ q + 1 / 10 ^ 20 := by linarith [he.2]
  have hepos : (0 : ℝ) < Real.exp 1 := Real.exp_pos 1
  have h1e : (1 : ℝ) ≤ Real.exp 1 := by
    have hx : (1 : ℝ) ≤ q - 1 / 10 ^ 20 := by rw [hq]; norm_num
    linarith
  have h5hi : Real.exp 1 ^ 5 ≤ (q + 1 / 10 ^ 20) ^ 5 := pow_le_pow_left₀ (le_of_lt hepos) hhi 5
  have h6lo : (q - 1 / 10 ^ 20) ^ 6 ≤ Real.exp 1 ^ 6 :=
    pow_le_pow_left₀ (by rw [hq]; norm_num) hlo 6
  have hb5 : (28939262 : ℝ) ≤ 2 ^ 32 * ((Real.exp 1)⁻¹) ^ 5 := by
    rw [inv_pow, ← div_eq_mul_inv, le_div_iff₀ (pow_pos hepos 5)]
    calc (28939262 : ℝ) * Real.exp 1 ^ 5
        ≤ 28939262 * (q + 1 / 10 ^ 20) ^ 5 := mul_le_mul_of_nonneg_left h5hi (by norm_num)
      _ ≤ 2 ^ 32 := by rw [hq]; norm_num
  have hb6 : (2 ^ 32 : ℝ) * ((Real.exp 1)⁻¹) ^ 6 < 28939262 := by
    rw [inv_pow, ← div_eq_mul_inv, div_lt_iff₀ (pow_pos hepos 6)]
    calc (2 : ℝ) ^ 32 < 28939262 * (q - 1 / 10 ^ 20) ^ 6 := by rw [hq]; norm_num
      _ ≤ 28939262 * Real.exp 1 ^ 6 := mul_le_mul_of_nonneg_left h6lo (by norm_num)
  refine ⟨by decide, ?_, hb6⟩
  intro h hh1 hh5
  have hle : ((Real.exp 1)⁻¹) ^ 5 ≤ ((Real.exp 1)⁻¹) ^ h :=
    pow_le_pow_of_le_one (inv_nonneg.mpr (le_of_lt hepos)) (inv_le_one_of_one_le₀ h1e) hh5
  have hmul : (2 : ℝ) ^ 32 * ((Real.exp 1)⁻¹) ^ 5 ≤ 2 ^ 32 * ((Real.exp 1)⁻¹) ^ h :=
    mul_le_mul_of_nonneg_left hle (by norm_num)
  linarith

end Boulder
